import Mathlib

/-!
# VoxelTerrain: a shallow embedding of `texture.hpp` and `main.cpp`

The C++ type `f32` is embedded as an arbitrary linearly ordered field `α`
with a floor function (exact arithmetic; `ℚ` gives an executable instance,
`ℝ` the analytic one).  Machine integers are `Nat`/`Int` with explicit
reduction modulo `2^32`.  Reads and writes of `std::vector` outside its
bounds have no defined result in C++; here they return `none`.
The libm functions (`sinf`, `cosf`, `tanf`, `exp`) and `M_PI` are not part of
the repository and are taken as a parameter `MathFns`.
The yaw velocity `turning.y`, whose long-run behaviour is decided by the
rounding of `f32`, is embedded a second time in binary32 (`F32`,
`VoxelTerrain.onUpdateTurningY32`).
-/

namespace Voxel

/-! ## Machine integers -/

/-- Value of a signed integer after conversion to `u32` (reduction modulo `2^32`). -/
def toU32 (x : Int) : Nat := (x % 4294967296).toNat

/-- Value of an unsigned integer after conversion to `i32` (two's complement). -/
def toI32 (n : Nat) : Int :=
  if n % 4294967296 < 2147483648 then ((n % 4294967296 : Nat) : Int)
  else ((n % 4294967296 : Nat) : Int) - 4294967296

/-- Result of a `u32` arithmetic operation whose exact value is `n`. -/
def u32 (n : Nat) : Nat := n % 4294967296

section Defs

variable {α : Type} [LinearOrderedField α] [FloorRing α]

/-- Conversion of a float to an integer type truncates toward zero. -/
def truncF (v : α) : Int := if 0 ≤ v then ⌊v⌋ else ⌈v⌉

/-- The cast `u8(v)`: truncation toward zero, kept to eight bits. -/
def toU8 (v : α) : Nat := (truncF v % 256).toNat

/-- The function `std::clamp(v, lo, hi)`. -/
def stdClamp (v lo hi : α) : α := if v < lo then lo else if hi < v then hi else v

/-! ## `struct Color` (texture.hpp) -/

/-- The struct `Color` of texture.hpp: four `f32` channels. -/
structure Color (α : Type) where
  r : α
  g : α
  b : α
  a : α
deriving DecidableEq

/-- The constructor `Color(r, g, b, a = 1.0f)` called with three arguments. -/
def Color.rgb (r g b : α) : Color α := ⟨r, g, b, 1⟩

/-- The default constructor `Color()`. -/
def Color.zero : Color α := ⟨0, 0, 0, 0⟩

/-- The operator `Color + Color`: the alpha of the left operand is kept. -/
def Color.add (c o : Color α) : Color α := ⟨c.r + o.r, c.g + o.g, c.b + o.b, c.a⟩

/-- The operator `Color - Color`: the alpha of the left operand is kept. -/
def Color.sub (c o : Color α) : Color α := ⟨c.r - o.r, c.g - o.g, c.b - o.b, c.a⟩

/-- The operator `Color * Color`. -/
def Color.mul (c o : Color α) : Color α := ⟨c.r * o.r, c.g * o.g, c.b * o.b, c.a * o.a⟩

/-- The operator `Color * f32`. -/
def Color.scale (c : Color α) (o : α) : Color α := ⟨c.r * o, c.g * o, c.b * o, c.a * o⟩

/-- The operator `Color / f32`. -/
def Color.div (c : Color α) (o : α) : Color α := ⟨c.r / o, c.g / o, c.b / o, c.a / o⟩

/-- The method `Color::lerp`: `(*this) * (1.0f - fac) + to * fac`. -/
def Color.lerp (c dst : Color α) (fac : α) : Color α :=
  (c.scale (1 - fac)).add (dst.scale fac)

/-- The method `Color::clamp`. -/
def Color.clamp (c : Color α) : Color α :=
  ⟨stdClamp c.r 0 1, stdClamp c.g 0 1, stdClamp c.b 0 1, stdClamp c.a 0 1⟩

/-! ## `class Texture` (texture.hpp) -/

/-- The class `Texture`: `m_width`, `m_height` (both `u32`) and the byte buffer `m_pixels`. -/
structure Texture where
  m_width : Nat
  m_height : Nat
  m_pixels : List Nat
deriving DecidableEq

/-- The defaulted constructor `Texture()`: zero size, empty buffer. -/
def Texture.default : Texture := ⟨0, 0, []⟩

/-- The constructor `Texture(u32 width, u32 height)`. -/
def Texture.create (width height : Nat) : Texture :=
  ⟨width, height, List.replicate (u32 (u32 (width * height) * 4)) 0⟩

/-- The accessor `width()`. -/
def Texture.width (t : Texture) : Nat := t.m_width

/-- The accessor `height()`. -/
def Texture.height (t : Texture) : Nat := t.m_height

/-- The offset `uvi` that `get` and `set` compute by the same three lines:
`x = x % m_width; y = y % m_height; u32 uvi = (x + y * m_width) * 4;`
(`x`, `y` are `i32`, `m_width` is `u32`, so every operation is unsigned). -/
def Texture.uvi (t : Texture) (x y : Int) : Nat :=
  let x := toI32 (toU32 x % t.m_width)
  let y := toI32 (toU32 y % t.m_height)
  u32 (u32 (toU32 x + u32 (toU32 y * t.m_width)) * 4)

/-- The store `m_pixels[i] = v`. -/
def writeByte (p : List Nat) (i v : Nat) : Option (List Nat) :=
  if i < p.length then some (p.set i v) else none

/-- The method `Texture::set`. -/
def Texture.set (t : Texture) (x y : Int) (color : Color α) : Option Texture :=
  if t.m_width = 0 ∨ t.m_height = 0 then some t
  else
    let color := color.clamp
    let uvi := t.uvi x y
    do
      let p ← writeByte t.m_pixels (u32 (uvi + 0)) (toU8 (color.r * 255))
      let p ← writeByte p (u32 (uvi + 1)) (toU8 (color.g * 255))
      let p ← writeByte p (u32 (uvi + 2)) (toU8 (color.b * 255))
      let p ← writeByte p (u32 (uvi + 3)) (toU8 (color.a * 255))
      some { t with m_pixels := p }

/-- The method `Texture::get`. -/
def Texture.get (t : Texture) (x y : Int) : Option (Color α) :=
  if t.m_width = 0 ∨ t.m_height = 0 then some (Color.rgb 0 0 0)
  else
    let uvi := t.uvi x y
    do
      let r ← t.m_pixels[u32 (uvi + 0)]?
      let g ← t.m_pixels[u32 (uvi + 1)]?
      let b ← t.m_pixels[u32 (uvi + 2)]?
      let a ← t.m_pixels[u32 (uvi + 3)]?
      some ⟨(r : α) / 255, (g : α) / 255, (b : α) / 255, (a : α) / 255⟩

/-- The method `Texture::sample` (bilinear filter); `u32 x = ::floor(u)`. -/
def Texture.sample (t : Texture) (u v : α) : Option (Color α) :=
  let u := u * (t.m_width : α)
  let v := v * (t.m_height : α)
  let x : Nat := toU32 ⌊u⌋
  let y : Nat := toU32 ⌊v⌋
  let ur := u - (x : α)
  let vr := v - (y : α)
  let uo := 1 - ur
  let vo := 1 - vr
  do
    let c00 ← t.get (toI32 x) (toI32 y)
    let c10 ← t.get (toI32 (u32 (x + 1))) (toI32 y)
    let c01 ← t.get (toI32 x) (toI32 (u32 (y + 1)))
    let c11 ← t.get (toI32 (u32 (x + 1))) (toI32 (u32 (y + 1)))
    some ((((c00.scale uo).add (c10.scale ur)).scale vo).add
      (((c01.scale uo).add (c11.scale ur)).scale vr))

/-! ## libm -/

/-- The functions of `<cmath>` used by main.cpp, and the constant `M_PI`. -/
structure MathFns (α : Type) where
  sinf : α → α
  cosf : α → α
  tanf : α → α
  exp : α → α
  sqrtf : α → α
  atan2f : α → α → α
  pi : α

/-- The macro `xlerp(a, b, t)`, that is `((1-t)*a+b*t)`. -/
def xlerp (a b t : α) : α := (1 - t) * a + b * t

/-- The macro `rad(x)`, that is `(x * 0.0174533f)`. -/
def rad (x : α) : α := x * (174533 / 10000000)

/-! ## `struct Vec3` (main.cpp) -/

/-- The struct `Vec3` of main.cpp. -/
structure Vec3 (α : Type) where
  x : α
  y : α
  z : α
deriving DecidableEq

/-- The default constructor `Vec3()`. -/
def Vec3.zero : Vec3 α := ⟨0, 0, 0⟩

/-- The method `Vec3::dot`. -/
def Vec3.dot (v o : Vec3 α) : α := v.x * o.x + v.y * o.y + v.z * o.z

/-- The method `Vec3::cross`. -/
def Vec3.cross (v o : Vec3 α) : Vec3 α :=
  ⟨v.y * o.z - v.z * o.y, v.z * o.x - v.x * o.z, v.x * o.y - v.y * o.x⟩

/-- The operator `Vec3 + Vec3`. -/
def Vec3.add (v o : Vec3 α) : Vec3 α := ⟨v.x + o.x, v.y + o.y, v.z + o.z⟩

/-- The operator `Vec3 - Vec3`. -/
def Vec3.sub (v o : Vec3 α) : Vec3 α := ⟨v.x - o.x, v.y - o.y, v.z - o.z⟩

/-- The operator `Vec3 * Vec3`. -/
def Vec3.mul (v o : Vec3 α) : Vec3 α := ⟨v.x * o.x, v.y * o.y, v.z * o.z⟩

/-- The operator `Vec3 * f32`. -/
def Vec3.scale (v : Vec3 α) (o : α) : Vec3 α := ⟨v.x * o, v.y * o, v.z * o⟩

/-- The operator `Vec3 / f32`. -/
def Vec3.div (v : Vec3 α) (o : α) : Vec3 α := ⟨v.x / o, v.y / o, v.z / o⟩

/-- The method `Vec3::length`. -/
def Vec3.length (m : MathFns α) (v : Vec3 α) : α := m.sqrtf (v.dot v)

/-- The method `Vec3::normalized`. -/
def Vec3.normalized (m : MathFns α) (v : Vec3 α) : Vec3 α := v.div (v.length m)

/-- The method `Vec3::angleZ`. -/
def Vec3.angleZ (m : MathFns α) (v : Vec3 α) : α := m.atan2f v.y v.x

/-- The method `Vec3::rotateX`. -/
def Vec3.rotateX (m : MathFns α) (v : Vec3 α) (angle : α) : Vec3 α :=
  let s := m.sinf angle
  let c := m.cosf angle
  let ry := v.y * c - v.z * s
  let rz := v.y * s + v.z * c
  ⟨v.x, ry, rz⟩

/-- The method `Vec3::rotateY` (as written: `rx` is built from `y`). -/
def Vec3.rotateY (m : MathFns α) (v : Vec3 α) (angle : α) : Vec3 α :=
  let s := m.sinf angle
  let c := m.cosf angle
  let rx := v.y * c + v.z * s
  let rz := v.y * (-s) + v.z * c
  ⟨rx, v.y, rz⟩

/-- The method `Vec3::rotateZ`. -/
def Vec3.rotateZ (m : MathFns α) (v : Vec3 α) (angle : α) : Vec3 α :=
  let s := m.sinf angle
  let c := m.cosf angle
  let rx := v.x * c - v.y * s
  let ry := v.x * s + v.y * c
  ⟨rx, ry, v.z⟩

/-- The method `Vec3::lerp`. -/
def Vec3.lerp (v dst : Vec3 α) (fac : α) : Vec3 α :=
  (v.scale (1 - fac)).add (dst.scale fac)

/-! ## `struct Mat3` (main.cpp) -/

/-- The struct `Mat3`: the nine entries `m[0] .. m[8]`, row-major. -/
structure Mat3 (α : Type) where
  m0 : α
  m1 : α
  m2 : α
  m3 : α
  m4 : α
  m5 : α
  m6 : α
  m7 : α
  m8 : α
deriving DecidableEq

/-- The default constructor `Mat3()`: the identity. -/
def Mat3.identity : Mat3 α := ⟨1, 0, 0, 0, 1, 0, 0, 0, 1⟩

/-- The method `Mat3::transposed`. -/
def Mat3.transposed (a : Mat3 α) : Mat3 α :=
  ⟨a.m0, a.m3, a.m6, a.m1, a.m4, a.m7, a.m2, a.m5, a.m8⟩

/-- The static method `Mat3::rotationX`. -/
def Mat3.rotationX (m : MathFns α) (angle : α) : Mat3 α :=
  let s := m.sinf angle
  let c := m.cosf angle
  ⟨1, 0, 0, 0, c, -s, 0, s, c⟩

/-- The static method `Mat3::rotationY`. -/
def Mat3.rotationY (m : MathFns α) (angle : α) : Mat3 α :=
  let s := m.sinf angle
  let c := m.cosf angle
  ⟨c, 0, s, 0, 1, 0, -s, 0, c⟩

/-- The static method `Mat3::rotationZ`. -/
def Mat3.rotationZ (m : MathFns α) (angle : α) : Mat3 α :=
  let s := m.sinf angle
  let c := m.cosf angle
  ⟨c, -s, 0, s, c, 0, 0, 0, 1⟩

/-- The operator `Mat3 * Mat3`: entry `i = x + y*3` starts at `0.0f` and
accumulates `m[k + y*3] * v[x + k*3]` for `k = 0, 1, 2`. -/
def Mat3.mul (a v : Mat3 α) : Mat3 α :=
  ⟨0 + a.m0 * v.m0 + a.m1 * v.m3 + a.m2 * v.m6,
   0 + a.m0 * v.m1 + a.m1 * v.m4 + a.m2 * v.m7,
   0 + a.m0 * v.m2 + a.m1 * v.m5 + a.m2 * v.m8,
   0 + a.m3 * v.m0 + a.m4 * v.m3 + a.m5 * v.m6,
   0 + a.m3 * v.m1 + a.m4 * v.m4 + a.m5 * v.m7,
   0 + a.m3 * v.m2 + a.m4 * v.m5 + a.m5 * v.m8,
   0 + a.m6 * v.m0 + a.m7 * v.m3 + a.m8 * v.m6,
   0 + a.m6 * v.m1 + a.m7 * v.m4 + a.m8 * v.m7,
   0 + a.m6 * v.m2 + a.m7 * v.m5 + a.m8 * v.m8⟩

/-- The operator `Mat3 * Vec3`. -/
def Mat3.mulVec (a : Mat3 α) (v : Vec3 α) : Vec3 α :=
  ⟨a.m0 * v.x + a.m1 * v.y + a.m2 * v.z,
   a.m3 * v.x + a.m4 * v.y + a.m5 * v.z,
   a.m6 * v.x + a.m7 * v.y + a.m8 * v.z⟩

/-! ## `class VoxelTerrain` (main.cpp) -/

/-- The data members of the class `VoxelTerrain`. -/
structure VoxelTerrain (α : Type) where
  heightmap : Texture
  color : Texture
  normalmap : Texture
  bg : Color α
  L : Vec3 α
  camPos : Vec3 α
  camRot : Vec3 α
  camFOV : α
  turning : Vec3 α
  turnSpeed : α
  moveSpeed : α
  distance : α
  scaleHeight : α

/-- The member initialisers of `VoxelTerrain`, with the two textures that `onSetup` loads. -/
def VoxelTerrain.init (heightmap color : Texture) : VoxelTerrain α :=
  { heightmap := heightmap
    color := color
    normalmap := Texture.default
    bg := Color.rgb (45 / 100) (1 / 10) (5 / 100)
    L := ⟨-1, -1, 1⟩
    camPos := ⟨160, 120, 120⟩
    camRot := ⟨1, 0, 0⟩
    camFOV := rad 90
    turning := ⟨0, 0, 0⟩
    turnSpeed := 20
    moveSpeed := 60
    distance := 800
    scaleHeight := 120 }

/-- The answers of `canvas->isHeld` for the four keys that `onUpdate` polls. -/
structure Keys where
  left : Bool
  right : Bool
  down : Bool
  up : Bool
deriving DecidableEq

/-- The method `VoxelTerrain::onUpdate`, in exact arithmetic; the binary32
course of `turning.y` is `VoxelTerrain.onUpdateTurningY32`. -/
def VoxelTerrain.onUpdate (m : MathFns α) (g : VoxelTerrain α) (keys : Keys) (dt : α) :
    VoxelTerrain α :=
  let rx := ((g.camRot.x / 2) * 2 - 1) * m.pi * (1 / 4)
  let rot := (Mat3.rotationZ m (-g.camRot.y)).mul (Mat3.rotationX m rx)
  let dir := rot.mulVec ⟨0, 1, 0⟩
  let turning := g.turning
  let turning : Vec3 α :=
    if keys.left then
      let ty := xlerp turning.y 1 (1 / 10)
      let tz := xlerp turning.z 70 dt
      ⟨turning.x, ty, tz⟩
    else if keys.right then
      let ty := xlerp turning.y (-1) (1 / 10)
      let tz := xlerp turning.z (-70) dt
      ⟨turning.x, ty, tz⟩
    else turning
  let turning : Vec3 α :=
    if keys.down then ⟨xlerp turning.y 2 (2 / 10), turning.y, turning.z⟩
    else if keys.up then ⟨xlerp turning.y (-2) (2 / 10), turning.y, turning.z⟩
    else turning
  let camPos := g.camPos.add ((dir.scale dt).scale g.moveSpeed)
  let camRotX := g.camRot.x + turning.x * dt
  let camRotX := stdClamp camRotX 0 2
  let camRotY := g.camRot.y + turning.y * dt
  let camRotZ := turning.z
  { g with
    camPos := camPos
    camRot := ⟨camRotX, camRotY, camRotZ⟩
    turning := turning.scale (9 / 10) }

/-- The state after the first `n` calls of `onUpdate`, call `i` receiving
the keys `keys i` and the time step `dt i`. -/
def VoxelTerrain.updates (m : MathFns α) (g : VoxelTerrain α) (keys : Nat → Keys)
    (dt : Nat → α) : Nat → VoxelTerrain α
  | 0 => g
  | n + 1 => (VoxelTerrain.updates m g keys dt n).onUpdate m (keys n) (dt n)

/-- The calls that `onDraw` makes on the canvas. The text of `str` is the
label character followed by `": "` and `std::to_string` of the value. -/
inductive DrawCmd (α : Type) where
  | clear (r g b : α)
  | line (x0 : Nat) (y0 : α) (x1 : Nat) (y1 : α) (r g b : α)
  | str (label : Char) (value : α) (x y : Nat)
deriving DecidableEq

/-- What `onDraw` has produced so far: the occlusion buffer `ybuffer` and the
canvas calls, oldest first. -/
structure DrawState (α : Type) where
  ybuffer : List α
  cmds : List (DrawCmd α)
deriving DecidableEq

/-- The locals that `onDraw` computes once per frame (main.cpp lines 195-212):
`thf`, `perp`, `dir` and `horizon`. -/
structure Frame (α : Type) where
  thf : α
  perp : Vec3 α
  dir : Vec3 α
  horizon : α

/-- The per-frame locals of `onDraw` on a canvas of height `ch`. The locals
`w2` and `planeDist` are computed and never read; they are left out. -/
def VoxelTerrain.frame (m : MathFns α) (g : VoxelTerrain α) (ch : Nat) : Frame α :=
  let h2 : α := ((ch / 2 : Nat) : α)
  let thf := m.tanf (g.camFOV / 2)
  let plane : Vec3 α := ⟨0, thf, 0⟩
  let plane := plane.rotateZ m (-g.camRot.y)
  let perp : Vec3 α := ⟨-plane.y, plane.x, 0⟩
  let s := m.sinf g.camRot.y
  let c := m.cosf g.camRot.y
  let dir : Vec3 α := ⟨s, c, 0⟩
  let horizon := g.camRot.x * h2
  ⟨thf, perp, dir, horizon⟩

/-- The state of `onDraw` before its slice loop (main.cpp lines 190, 205-207):
the canvas cleared, `ybuffer` filled with `canvas->height()`. -/
def VoxelTerrain.drawInit (g : VoxelTerrain α) (cw ch : Nat) : DrawState α :=
  ⟨List.replicate cw (ch : α), [DrawCmd.clear g.bg.r g.bg.g g.bg.b]⟩

/-- The locals computed at the head of one pass of the slice loop
(main.cpp lines 217-222) that the column loop reads. -/
structure Slice (α : Type) where
  lz : α
  invz : α
  pleft : Vec3 α
  pright : Vec3 α

/-- The per-slice locals at depth `z` with step `dz`. -/
def VoxelTerrain.slice (g : VoxelTerrain α) (f : Frame α) (z dz : α) : Slice α :=
  let sz := z / f.thf
  let lz := (sz - 1) / g.distance * dz
  let invz := 1 / z * g.scaleHeight
  let pleft := (g.camPos.add (f.dir.scale sz)).sub (f.perp.scale sz)
  let pright := (g.camPos.add (f.dir.scale sz)).add (f.perp.scale sz)
  ⟨lz, invz, pleft, pright⟩

/-- The screen row `h` of column `x` in a slice (main.cpp lines 225-233);
`cw` is `canvas->width()`. -/
def VoxelTerrain.screenRow (g : VoxelTerrain α) (cw : Nat) (f : Frame α) (sl : Slice α)
    (x : Nat) : Option α :=
  let xf := (x : α) / (cw : α)
  let pos := sl.pleft.lerp sl.pright xf
  do
    let c ← (g.heightmap.get (truncF pos.x) (truncF pos.y) : Option (Color α))
    let val := c.r
    let h := (g.camPos.z - val * 255) * sl.invz + f.horizon
    let h := h + g.camRot.z * (xf * 2 - 1)
    some h

/-- The body of the column loop of `onDraw` (main.cpp lines 225-250);
`cw`, `ch` are `canvas->width()` and `canvas->height()`. -/
def VoxelTerrain.drawColumn (m : MathFns α) (g : VoxelTerrain α) (cw ch : Nat)
    (f : Frame α) (sl : Slice α) (st : DrawState α) (x : Nat) : Option (DrawState α) :=
  let xf := (x : α) / (cw : α)
  let pos := sl.pleft.lerp sl.pright xf
  do
    let h ← g.screenRow cw f sl x
    if h < 0 ∨ h > (ch : α) then some st
    else
      let fogD : α := 1
      let fog := 1 / m.exp ((sl.lz * fogD) * (sl.lz * fogD))
      let fog := stdClamp fog 0 1
      let texel ← (g.color.get (truncF pos.x) (truncF pos.y) : Option (Color α))
      let col := g.bg.lerp texel fog
      let top ← st.ybuffer[x]?
      if h < top then
        some ⟨st.ybuffer.set x h, st.cmds ++ [DrawCmd.line x h x top col.r col.g col.b]⟩
      else some st

/-- One pass of the slice loop body (main.cpp lines 217-251) at depth `z`
with step `dz`: the column loop `for (u32 x = 0; x < canvas->width(); x++)`. -/
def VoxelTerrain.drawSlice (m : MathFns α) (g : VoxelTerrain α) (cw ch : Nat)
    (f : Frame α) (z dz : α) (st : DrawState α) : Option (DrawState α) :=
  (List.range cw).foldlM (g.drawColumn m cw ch f (g.slice f z dz)) st

/-- The loop `for (f32 z = 1.0f; z < distance; z += dz)` whose body ends
with `dz += 0.001f`; `none` when `fuel` passes do not reach the exit. -/
def VoxelTerrain.sliceLoop (m : MathFns α) (g : VoxelTerrain α) (cw ch : Nat) (f : Frame α) :
    Nat → α → α → DrawState α → Option (DrawState α)
  | 0, _, _, _ => none
  | fuel + 1, z, dz, st =>
    if z < g.distance then do
      let st ← g.drawSlice m cw ch f z dz st
      let dz := dz + 1 / 1000
      VoxelTerrain.sliceLoop m g cw ch f fuel (z + dz) dz st
    else some st

/-- The method `VoxelTerrain::onDraw` on a canvas of `cw` by `ch` pixels.
Every pass adds more than one to `z`, so `⌈distance⌉ + 1` passes reach the exit. -/
def VoxelTerrain.onDraw (m : MathFns α) (g : VoxelTerrain α) (cw ch : Nat) :
    Option (DrawState α) := do
  let st ← g.sliceLoop m cw ch (g.frame m ch) (Nat.ceil g.distance + 1) 1 1 (g.drawInit cw ch)
  some ⟨st.ybuffer, st.cmds ++
    [DrawCmd.str 'X' g.camPos.x 10 10, DrawCmd.str 'Y' g.camPos.y 10 20]⟩

end Defs

/-- The invariant of the data model: the buffer holds `width*height*4` bytes,
a size that fits the `u32` offset. -/
def Texture.WF (t : Texture) : Prop :=
  t.m_pixels.length = t.m_width * t.m_height * 4 ∧ t.m_width * t.m_height * 4 < 4294967296

instance Texture.decidableWF (t : Texture) : Decidable t.WF := by
  unfold Texture.WF; exact inferInstance

/-! ## Specification-side notions and concrete inputs -/

/-- A channel as the specification describes the round trip: clamped to
`[0,1]`, then moved to the nearest multiple of `1/255`. -/
def nearest255 {α : Type} [LinearOrderedField α] [FloorRing α] (v : α) : α :=
  ((round (stdClamp v 0 1 * 255) : Int) : α) / 255

/-- A texture three pixels wide and one high, with red bytes 10, 20, 30. -/
def stripe3 : Texture := ⟨3, 1, [10, 0, 0, 255, 20, 0, 0, 255, 30, 0, 0, 255]⟩

/-- A texture of a single black pixel. -/
def pixel1 : Texture := ⟨1, 1, [0, 0, 0, 0]⟩

/-- The occlusion buffer `new` is the buffer `old` with some entries lowered,
each lowered entry being a row inside `[0, ch]`. -/
def Lowered {α : Type} [LinearOrderedField α] (ch : Nat) (new old : List α) : Prop :=
  new.length = old.length ∧
    ∀ (j : Nat) (v' : α), new[j]? = some v' →
      ∃ v : α, old[j]? = some v ∧ v' ≤ v ∧ (v' = v ∨ (0 ≤ v' ∧ v' ≤ (ch : α)))

/-- Every pixel of the texture has the red byte `p`. -/
def Texture.RedConst (t : Texture) (p : Nat) : Prop :=
  ∀ i, i < t.m_width * t.m_height → t.m_pixels[4 * i]? = some p

instance Texture.decidableRedConst (t : Texture) (p : Nat) : Decidable (t.RedConst p) := by
  unfold Texture.RedConst; exact inferInstance

/-- A one-pixel heightmap of red byte 128, that is red 0.502. -/
def flat128 : Texture := ⟨1, 1, [128, 128, 128, 255]⟩

/-- A one-pixel heightmap of red byte 127, that is red 0.498. -/
def flat127 : Texture := ⟨1, 1, [127, 127, 127, 255]⟩

/-- Values of the `<cmath>` functions for a camera of yaw 0 and a field of
view of 90 degrees: `sinf(0) = 0`, `cosf(0) = 1`, `tanf(camFOV / 2) = 1`;
the other entries are placeholders on whose values no statement below depends. -/
def yawZeroMath : MathFns ℚ :=
  { sinf := fun _ => 0
    cosf := fun _ => 1
    tanf := fun _ => 1
    exp := fun _ => 1
    sqrtf := fun v => v
    atan2f := fun _ _ => 0
    pi := 355 / 113 }

/-- The renderer as constructed, with the one-pixel textures `flat128` and `pixel1`. -/
def demoGame : VoxelTerrain ℚ := VoxelTerrain.init flat128 pixel1

/-- The left arrow key held, the three others released. -/
def leftHeld : Keys := ⟨true, false, false, false⟩

/-- A colour whose red channel lies between 254/255 and 1, nearer to 1. -/
def almostRed : Color ℚ := ⟨999 / 1000, 0, 0, 1⟩

/-- No key held. -/
def noKeys : Keys := ⟨false, false, false, false⟩

/-- The up arrow key held, the three others released. -/
def upHeld : Keys := ⟨false, false, false, true⟩

/-- The `<cmath>` functions taken over real arithmetic: the identities of the
exact sine, cosine and square root that the statements on rotations and
lengths rely on. `Real.sin`, `Real.cos` and `Real.sqrt` satisfy them. -/
structure MathFns.Exact {α : Type} [LinearOrderedField α] (m : MathFns α) : Prop where
  sin_sq_add_cos_sq : ∀ a, m.sinf a * m.sinf a + m.cosf a * m.cosf a = 1
  sin_neg : ∀ a, m.sinf (-a) = -m.sinf a
  cos_neg : ∀ a, m.cosf (-a) = m.cosf a
  sqrt_mul_self : ∀ a, 0 ≤ a → m.sqrtf (a * a) = a
  mul_self_sqrt : ∀ a, 0 ≤ a → m.sqrtf a * m.sqrtf a = a

/-- The forward direction `dir` that `onUpdate` computes (main.cpp lines 162-164). -/
def VoxelTerrain.forward {α : Type} [LinearOrderedField α] (m : MathFns α)
    (g : VoxelTerrain α) : Vec3 α :=
  let rx := ((g.camRot.x / 2) * 2 - 1) * m.pi * (1 / 4)
  let rot := (Mat3.rotationZ m (-g.camRot.y)).mul (Mat3.rotationX m rx)
  rot.mulVec ⟨0, 1, 0⟩

/-- A fully opaque texture two pixels wide and one high: black, then white. -/
def opaque2 : Texture := ⟨2, 1, [0, 0, 0, 255, 255, 255, 255, 255]⟩

/-- The span `(h, top)` of a `line` call made for column `x`, from the row `h`
to the previous occlusion value `top`; `none` for every other canvas call. -/
def DrawCmd.span {α : Type} (x : Nat) : DrawCmd α → Option (α × α)
  | DrawCmd.line x0 y0 _ y1 _ _ _ => if x0 = x then some (y0, y1) else none
  | DrawCmd.clear _ _ _ => none
  | DrawCmd.str _ _ _ _ => none

/-- The spans drawn for column `x` by a list of canvas calls, oldest first. -/
def spansOf {α : Type} (x : Nat) (cmds : List (DrawCmd α)) : List (α × α) :=
  cmds.filterMap (DrawCmd.span x)

/-- The spans, oldest first, descend from `hi` to `lo` end to end: the first
one hangs from `hi`, each next one hangs from the row of the one before, each
is non-empty (`h < top`), and the last row is `lo`. -/
def SpanChain {α : Type} [LinearOrderedField α] : α → List (α × α) → α → Prop
  | hi, [], lo => lo = hi
  | hi, s :: rest, lo => s.2 = hi ∧ s.1 < s.2 ∧ SpanChain s.1 rest lo

/-- For every column that has an occlusion value, the spans drawn so far for
it descend end to end from the viewport height `ch` to that value. -/
def Tiled {α : Type} [LinearOrderedField α] (ch : Nat) (st : DrawState α) : Prop :=
  ∀ (x : Nat) (v : α), st.ybuffer[x]? = some v → SpanChain (ch : α) (spansOf x st.cmds) v

/-- The depths `z` and steps `dz` of the passes of the slice loop of `onDraw`,
in the order of the passes: `for (f32 z = 1.0f; z < distance; z += dz)` with
`dz += 0.001f` at the end of the body; at most `fuel` passes. -/
def VoxelTerrain.slices {α : Type} [LinearOrderedField α] (g : VoxelTerrain α) :
    Nat → α → α → List (α × α)
  | 0, _, _ => []
  | fuel + 1, z, dz =>
    if z < g.distance then
      (z, dz) :: VoxelTerrain.slices g fuel (z + (dz + 1 / 1000)) (dz + 1 / 1000)
    else []

/-- The law of one column as the specification words it, on the pair of the
column's occlusion value and its spans so far: a row `h` inside
`[0, viewportHeight]` and strictly below the occlusion value adds the span
from `h` to that value and becomes the new value; any other row changes nothing. -/
def columnLaw {α : Type} [LinearOrderedField α] (ch : Nat) (acc : α × List (α × α)) (h : α) :
    α × List (α × α) :=
  if (0 ≤ h ∧ h ≤ (ch : α)) ∧ h < acc.1 then (h, acc.2 ++ [(h, acc.1)]) else acc

/-- A one-pixel heightmap of red byte 120, the height of the camera as constructed. -/
def flat120 : Texture := ⟨1, 1, [120, 120, 120, 255]⟩

/-- The renderer as constructed, over the heightmap `flat120`. -/
def levelGame : VoxelTerrain ℚ := VoxelTerrain.init flat120 pixel1

/-! ## Binary32 rounding

Where a statement holds of the program only through the rounding of `f32`,
the code is embedded a second time over this model of IEEE 754 binary32:
round to nearest, ties to even, after every operation. A finite value `x` is
held as the integer `x * 2^149` (every finite binary32 value is such an
integer). Overflow to infinity and NaN are not modelled. -/

/-- The least `s ≥ s0` with `N / 2^s < 2^24`, searched upward for `fuel` steps:
the number of low bits of `N` that a 24-bit significand cannot hold. -/
def shiftFrom : Nat → Nat → Nat → Nat
  | 0, _, s => s
  | fuel + 1, N, s => if N / 2 ^ s < 16777216 then s else shiftFrom fuel N (s + 1)

/-- Round to nearest, ties to even, of the non-negative rational `U / D`
(counted in units of `2^-149`) to a 24-bit significand; the result is in the
same units. Below `2^24` units (subnormals and the lowest normals) the
quantum is one unit. -/
def rne24 (U D : Nat) : Nat :=
  let s := shiftFrom 512 (U / D) 0
  let m := U / (D * 2 ^ s)
  let r := U % (D * 2 ^ s)
  let m := if D * 2 ^ s < 2 * r ∨ (2 * r = D * 2 ^ s ∧ m % 2 = 1) then m + 1 else m
  m * 2 ^ s

/-- A finite binary32 value `x`, held as the integer `x * 2^149`; the order of
the values is the order of these integers. -/
structure F32 where
  units : Int
deriving DecidableEq

/-- The binary32 value nearest to `U / D` units of `2^-149` (rounding is symmetric in the sign). -/
def F32.round (U : Int) (D : Nat) : F32 :=
  ⟨if 0 ≤ U then (rne24 U.toNat D : Int) else -(rne24 (-U).toNat D : Int)⟩

/-- The finite binary32 value with the IEEE 754 bit pattern `b`: sign bit,
eight exponent bits, 23 fraction bits. -/
def F32.ofBits (b : Nat) : F32 :=
  let e := b / 8388608 % 256
  let frac := b % 8388608
  let mag : Nat := if e = 0 then frac else (8388608 + frac) * 2 ^ (e - 1)
  ⟨if b / 2147483648 % 2 = 1 then -(mag : Int) else (mag : Int)⟩

/-- The value `1.0f`, also the `int` 1 converted to `f32`. -/
def F32.one : F32 := ⟨((2 ^ 149 : Nat) : Int)⟩

/-- The literal `p/q` written with the suffix `f`: the nearest binary32 value. -/
def F32.lit (p q : Nat) : F32 := F32.round ((p * 2 ^ 149 : Nat) : Int) q

/-- Unary minus, exact. -/
def F32.neg (a : F32) : F32 := ⟨-a.units⟩

/-- The `f32` sum: the exact sum, rounded. -/
def F32.add (a b : F32) : F32 := F32.round (a.units + b.units) 1

/-- The `f32` difference: the exact difference, rounded. -/
def F32.sub (a b : F32) : F32 := F32.round (a.units - b.units) 1

/-- The `f32` product: the exact product (in units of `2^-298`), rounded. -/
def F32.mul (a b : F32) : F32 := F32.round (a.units * b.units) (2 ^ 149)

/-- The macro `xlerp(a, b, t)`, that is `((1-t)*a+b*t)`, on `f32` operands:
four rounded operations. -/
def xlerp32 (a b t : F32) : F32 := ((F32.one.sub t).mul a).add (b.mul t)

/-- The member `turning.y` through one call of `onUpdate`, in binary32
(main.cpp lines 166-172 and 186): `xlerp(turning.y, ±1.0f, 0.1f)` under the
left or right key, then the `* 0.9f` of `turning = turning * 0.9f`. Neither
`dt`, the other keys nor the other members enter. -/
def VoxelTerrain.onUpdateTurningY32 (keys : Keys) (y : F32) : F32 :=
  let y :=
    if keys.left then xlerp32 y F32.one (F32.lit 1 10)
    else if keys.right then xlerp32 y F32.one.neg (F32.lit 1 10)
    else y
  y.mul (F32.lit 9 10)

/-- The member `turning.y` after the first `n` calls of `onUpdate`, in
binary32, from the value `y0`, call `i` receiving the keys `keys i`. -/
def VoxelTerrain.turningY32 (y0 : F32) (keys : Nat → Keys) : Nat → F32
  | 0 => y0
  | n + 1 => VoxelTerrain.onUpdateTurningY32 (keys n) (VoxelTerrain.turningY32 y0 keys n)

/-- Whether each of the next `k` updates with the left key held makes
`turning.y` strictly larger and leaves it at most `1.0f`. -/
def climbCheck : Nat → F32 → Bool
  | 0, _ => true
  | k + 1, y =>
    decide (y.units < (VoxelTerrain.onUpdateTurningY32 leftHeld y).units ∧
      (VoxelTerrain.onUpdateTurningY32 leftHeld y).units ≤ F32.one.units) &&
    climbCheck k (VoxelTerrain.onUpdateTurningY32 leftHeld y)

end Voxel

/-! # Theorems -/

namespace Voxel

/-! ## Machine integer facts -/

theorem toU32_lt (x : Int) : toU32 x < 4294967296 := by
  unfold toU32; omega

theorem toU32_natCast (n : Nat) (h : n < 4294967296) : toU32 (n : Int) = n := by
  unfold toU32; omega

theorem toI32_small (n : Nat) (h : n < 2147483648) : toI32 n = (n : Int) := by
  unfold toI32; split <;> omega

theorem u32_small (n : Nat) (h : n < 4294967296) : u32 n = n := by
  unfold u32; omega

/-- The wrapped coordinate survives the round trip `u32 → i32 → u32`. -/
theorem toU32_toI32_small (n : Nat) (h : n < 2147483648) : toU32 (toI32 n) = n := by
  rw [toI32_small n h, toU32_natCast n (by omega)]

/-- On a texture whose byte count fits `u32`, `uvi` is four times the index
of the pixel in row `toU32 y % height`, column `toU32 x % width`. -/
theorem Texture.uvi_eq (t : Texture) (x y : Int) (hw : 0 < t.m_width) (hh : 0 < t.m_height)
    (h32 : t.m_width * t.m_height * 4 < 4294967296) :
    t.uvi x y = (toU32 x % t.m_width + toU32 y % t.m_height * t.m_width) * 4 ∧
      t.uvi x y + 3 < t.m_width * t.m_height * 4 := by
  have ha : toU32 x % t.m_width < t.m_width := Nat.mod_lt _ hw
  have hb : toU32 y % t.m_height < t.m_height := Nat.mod_lt _ hh
  have hbw : (toU32 y % t.m_height + 1) * t.m_width ≤ t.m_height * t.m_width :=
    Nat.mul_le_mul_right _ hb
  have hWH : t.m_width * 1 ≤ t.m_width * t.m_height := Nat.mul_le_mul_left _ hh
  have hHW : t.m_height * 1 ≤ t.m_height * t.m_width := Nat.mul_le_mul_left _ hw
  have hcomm : t.m_height * t.m_width = t.m_width * t.m_height := Nat.mul_comm _ _
  have hexp : (toU32 y % t.m_height + 1) * t.m_width
      = toU32 y % t.m_height * t.m_width + t.m_width := by ring
  have hx : toU32 (toI32 (toU32 x % t.m_width)) = toU32 x % t.m_width :=
    toU32_toI32_small _ (by omega)
  have hy : toU32 (toI32 (toU32 y % t.m_height)) = toU32 y % t.m_height :=
    toU32_toI32_small _ (by omega)
  have e : t.uvi x y = (toU32 x % t.m_width + toU32 y % t.m_height * t.m_width) * 4 := by
    unfold Texture.uvi
    simp only [hx, hy]
    rw [u32_small (toU32 y % t.m_height * t.m_width) (by omega),
      u32_small (toU32 x % t.m_width + toU32 y % t.m_height * t.m_width) (by omega),
      u32_small _ (by omega)]
  refine ⟨e, ?_⟩
  rw [e]; omega

/-! ## Texture access -/

section TextureFacts

variable {α : Type} [LinearOrderedField α]

/-- A clamped channel times 255 truncates to its floor, a byte. -/
theorem toU8_clamped [FloorRing α] (v : α) :
    ((toU8 (stdClamp v 0 1 * 255) : Nat) : α) = ((⌊stdClamp v 0 1 * 255⌋ : Int) : α) ∧
      toU8 (stdClamp v 0 1 * 255) < 256 := by
  have h0 : (0 : α) ≤ stdClamp v 0 1 := by
    unfold stdClamp; split_ifs <;> first | exact le_refl _ | exact zero_le_one | exact le_of_not_lt ‹_›
  have h1 : stdClamp v 0 1 ≤ (1 : α) := by
    unfold stdClamp; split_ifs <;> first | exact le_refl _ | exact zero_le_one | exact le_of_not_lt ‹_›
  have hnn : (0 : α) ≤ stdClamp v 0 1 * 255 := mul_nonneg h0 (by norm_num)
  have hle : stdClamp v 0 1 * 255 ≤ (255 : α) := by
    calc stdClamp v 0 1 * 255 ≤ 1 * 255 := mul_le_mul_of_nonneg_right h1 (by norm_num)
      _ = 255 := one_mul _
  have hf0 : (0 : Int) ≤ ⌊stdClamp v 0 1 * 255⌋ := Int.floor_nonneg.mpr hnn
  have hf1 : ⌊stdClamp v 0 1 * 255⌋ ≤ (255 : Int) := by
    have : ⌊stdClamp v 0 1 * 255⌋ ≤ ⌊(255 : α)⌋ := Int.floor_le_floor hle
    have h255 : ⌊(255 : α)⌋ = 255 := by
      simp
    omega
  have ht : truncF (stdClamp v 0 1 * 255) = ⌊stdClamp v 0 1 * 255⌋ := by
    unfold truncF; rw [if_pos hnn]
  have hn : ((toU8 (stdClamp v 0 1 * 255) : Nat) : Int) = ⌊stdClamp v 0 1 * 255⌋ := by
    unfold toU8; rw [ht]; omega
  constructor
  · rw [← hn]; simp
  · omega

/-- With the four bytes at `uvi .. uvi+3` in the buffer, `get` returns them divided by 255. -/
theorem Texture.get_of_bytes (t : Texture) (x y : Int) (r g b a : Nat)
    (hw : 0 < t.m_width) (hh : 0 < t.m_height)
    (hr : t.m_pixels[t.uvi x y]? = some r) (hg : t.m_pixels[t.uvi x y + 1]? = some g)
    (hb : t.m_pixels[t.uvi x y + 2]? = some b) (ha : t.m_pixels[t.uvi x y + 3]? = some a) :
    (t.get x y : Option (Color α)) = some ⟨(r : α) / 255, (g : α) / 255, (b : α) / 255, (a : α) / 255⟩ := by
  have hlt : t.uvi x y + 3 < 4294967296 := by
    have h4 : ∀ n : Nat, u32 (n * 4) % 4 = 0 ∧ u32 (n * 4) < 4294967296 := by
      intro n; unfold u32; omega
    have h := h4 (u32 (toU32 (toI32 (toU32 x % t.m_width))
      + u32 (toU32 (toI32 (toU32 y % t.m_height)) * t.m_width)))
    have e : t.uvi x y = u32 (u32 (toU32 (toI32 (toU32 x % t.m_width))
      + u32 (toU32 (toI32 (toU32 y % t.m_height)) * t.m_width)) * 4) := rfl
    rw [← e] at h
    omega
  unfold Texture.get
  rw [if_neg (by omega)]
  simp only [u32_small (t.uvi x y) (by omega), u32_small (t.uvi x y + 1) (by omega),
    u32_small (t.uvi x y + 2) (by omega), u32_small (t.uvi x y + 3) (by omega), Nat.add_zero,
    hr, hg, hb, ha, Option.bind_eq_bind, Option.some_bind]

/-- On a well-formed texture of positive size the four bytes of a pixel are in the buffer. -/
theorem Texture.bytes_present (t : Texture) (x y : Int) (hw : 0 < t.m_width)
    (hh : 0 < t.m_height) (hwf : t.WF) (k : Nat) (hk : k < 4) :
    ∃ v, t.m_pixels[t.uvi x y + k]? = some v := by
  have h := (t.uvi_eq x y hw hh hwf.2).2
  have hl := hwf.1
  have hlt : t.uvi x y + k < t.m_pixels.length := by omega
  exact ⟨t.m_pixels[t.uvi x y + k], List.getElem?_eq_getElem hlt⟩

/-- On a well-formed texture of positive size `get` reads inside the buffer. -/
theorem Texture.get_isSome (t : Texture) (x y : Int) (hw : 0 < t.m_width)
    (hh : 0 < t.m_height) (hwf : t.WF) : ∃ c : Color α, t.get x y = some c := by
  obtain ⟨r, hr⟩ := t.bytes_present x y hw hh hwf 0 (by omega)
  obtain ⟨g, hg⟩ := t.bytes_present x y hw hh hwf 1 (by omega)
  obtain ⟨b, hb⟩ := t.bytes_present x y hw hh hwf 2 (by omega)
  obtain ⟨a, ha⟩ := t.bytes_present x y hw hh hwf 3 (by omega)
  exact ⟨_, t.get_of_bytes x y r g b a hw hh hr hg hb ha⟩

/-- On a texture of zero width or height `get` returns `Color(0, 0, 0)`, whose alpha is 1. -/
theorem Texture.get_zero_size (t : Texture) (x y : Int) (h : t.m_width = 0 ∨ t.m_height = 0) :
    (t.get x y : Option (Color α)) = some ⟨0, 0, 0, 1⟩ := by
  unfold Texture.get Color.rgb
  rw [if_pos h]

/-- A well-formed texture can be read at all coordinates. -/
theorem Texture.get_total (t : Texture) (hwf : t.WF) (x y : Int) :
    ∃ c : Color α, t.get x y = some c := by
  by_cases hz : t.m_width = 0 ∨ t.m_height = 0
  · exact ⟨_, t.get_zero_size x y hz⟩
  · exact t.get_isSome x y (by omega) (by omega) hwf

/-- On a well-formed texture of positive size `set` writes the four bytes in place. -/
theorem Texture.set_eq [FloorRing α] (t : Texture) (x y : Int) (c : Color α) (hw : 0 < t.m_width)
    (hh : 0 < t.m_height) (hwf : t.WF) :
    t.set x y c = some ⟨t.m_width, t.m_height,
      (((t.m_pixels.set (t.uvi x y) (toU8 (stdClamp c.r 0 1 * 255))).set (t.uvi x y + 1)
        (toU8 (stdClamp c.g 0 1 * 255))).set (t.uvi x y + 2)
        (toU8 (stdClamp c.b 0 1 * 255))).set (t.uvi x y + 3)
        (toU8 (stdClamp c.a 0 1 * 255))⟩ := by
  have h := (t.uvi_eq x y hw hh hwf.2).2
  have hl := hwf.1
  have h32 := hwf.2
  unfold Texture.set
  rw [if_neg (by omega)]
  simp only [u32_small (t.uvi x y) (by omega), u32_small (t.uvi x y + 1) (by omega),
    u32_small (t.uvi x y + 2) (by omega), u32_small (t.uvi x y + 3) (by omega), Nat.add_zero,
    writeByte, Color.clamp, Option.bind_eq_bind]
  rw [if_pos (by omega)]
  simp only [Option.some_bind, List.length_set]
  rw [if_pos (by omega)]
  simp only [Option.some_bind, List.length_set]
  rw [if_pos (by omega)]
  simp only [Option.some_bind, List.length_set]
  rw [if_pos (by omega)]
  simp only [Option.some_bind]

/-- Reading back the pixel just written gives the four stored bytes over 255. -/
theorem Texture.set_then_get [FloorRing α] (t : Texture) (x y : Int) (c : Color α)
    (hw : 0 < t.m_width) (hh : 0 < t.m_height) (hwf : t.WF) :
    ∃ t' : Texture, t.set x y c = some t' ∧
      (t'.get x y : Option (Color α)) =
        some ⟨((⌊stdClamp c.r 0 1 * 255⌋ : Int) : α) / 255,
          ((⌊stdClamp c.g 0 1 * 255⌋ : Int) : α) / 255,
          ((⌊stdClamp c.b 0 1 * 255⌋ : Int) : α) / 255,
          ((⌊stdClamp c.a 0 1 * 255⌋ : Int) : α) / 255⟩ := by
  have h := (t.uvi_eq x y hw hh hwf.2).2
  have hl := hwf.1
  refine ⟨_, t.set_eq x y c hw hh hwf, ?_⟩
  rw [← (toU8_clamped c.r).1, ← (toU8_clamped c.g).1, ← (toU8_clamped c.b).1,
    ← (toU8_clamped c.a).1]
  refine Texture.get_of_bytes ⟨t.m_width, t.m_height, _⟩ x y _ _ _ _ hw hh ?_ ?_ ?_ ?_
  · show (List.set _ _ _)[t.uvi x y]? = _
    rw [List.getElem?_set_ne (by omega), List.getElem?_set_ne (by omega),
      List.getElem?_set_ne (by omega), List.getElem?_set_self (by omega)]
  · show (List.set _ _ _)[t.uvi x y + 1]? = _
    rw [List.getElem?_set_ne (by omega), List.getElem?_set_ne (by omega),
      List.getElem?_set_self (by rw [List.length_set]; omega)]
  · show (List.set _ _ _)[t.uvi x y + 2]? = _
    rw [List.getElem?_set_ne (by omega),
      List.getElem?_set_self (by rw [List.length_set, List.length_set]; omega)]
  · show (List.set _ _ _)[t.uvi x y + 3]? = _
    rw [List.getElem?_set_self
      (by rw [List.length_set, List.length_set, List.length_set]; omega)]

/-- On a texture whose red bytes all equal `p`, every read has red channel `p / 255`. -/
theorem Texture.get_red_const (t : Texture) (p : Nat) (x y : Int) (hw : 0 < t.m_width)
    (hh : 0 < t.m_height) (hwf : t.WF) (hred : t.RedConst p) :
    ∃ c : Color α, t.get x y = some c ∧ c.r = (p : α) / 255 := by
  obtain ⟨e, hlt⟩ := t.uvi_eq x y hw hh hwf.2
  obtain ⟨r, hr⟩ := t.bytes_present x y hw hh hwf 0 (by omega)
  obtain ⟨g, hg⟩ := t.bytes_present x y hw hh hwf 1 (by omega)
  obtain ⟨b, hb⟩ := t.bytes_present x y hw hh hwf 2 (by omega)
  obtain ⟨a, ha⟩ := t.bytes_present x y hw hh hwf 3 (by omega)
  have hp := hred (toU32 x % t.m_width + toU32 y % t.m_height * t.m_width) (by omega)
  have hidx : 4 * (toU32 x % t.m_width + toU32 y % t.m_height * t.m_width) = t.uvi x y + 0 := by
    omega
  rw [hidx, hr] at hp
  injection hp with hp
  subst hp
  exact ⟨_, t.get_of_bytes x y r g b a hw hh hr hg hb ha, rfl⟩

end TextureFacts

/-! ## Claims on the texture store and on colours -/

/-- C1 (evaluation at the failing input): on the 3x1 texture `stripe3`,
`get(-1, 0)` reads the pixel of column 0 (red 10/255), because `-1` becomes
`4294967295` before `% 3`, while `get(-1 + 1*3, 0 + 1*1)` reads column 2
(red 30/255); the two reads, one period apart, differ. -/
theorem Texture.get_negative_wrap_breaks_period :
    (stripe3.get (-1) 0 : Option (Color ℚ)) = some ⟨10 / 255, 0, 0, 1⟩ ∧
      (stripe3.get (-1 + 1 * 3) (0 + 1 * 1) : Option (Color ℚ)) = some ⟨30 / 255, 0, 0, 1⟩ ∧
      (stripe3.get (-1) 0 : Option (Color ℚ)) ≠ stripe3.get (-1 + 1 * 3) (0 + 1 * 1) := by
  have hw : 0 < stripe3.m_width := by decide
  have hh : 0 < stripe3.m_height := by decide
  have u1 : stripe3.uvi (-1) 0 = 0 := by decide
  have u2 : stripe3.uvi (-1 + 1 * 3) (0 + 1 * 1) = 8 := by decide
  have e1 : (stripe3.get (-1) 0 : Option (Color ℚ)) = some ⟨10 / 255, 0, 0, 1⟩ := by
    rw [stripe3.get_of_bytes (-1) 0 10 0 0 255 hw hh (by rw [u1]; rfl) (by rw [u1]; rfl)
      (by rw [u1]; rfl) (by rw [u1]; rfl)]
    norm_num
  have e2 : (stripe3.get (-1 + 1 * 3) (0 + 1 * 1) : Option (Color ℚ))
      = some ⟨30 / 255, 0, 0, 1⟩ := by
    rw [stripe3.get_of_bytes (-1 + 1 * 3) (0 + 1 * 1) 30 0 0 255 hw hh (by rw [u2]; rfl)
      (by rw [u2]; rfl) (by rw [u2]; rfl) (by rw [u2]; rfl)]
    norm_num
  refine ⟨e1, e2, ?_⟩
  rw [e1, e2]
  intro h
  have hr := congrArg (fun o : Option (Color ℚ) => o.map Color.r) h
  simp only [Option.map_some'] at hr
  norm_num at hr

/-- C2: on a texture that satisfies the invariant of the data model (when
width and height are positive, the buffer holds `width*height*4 < 2^32`
bytes), for all integer coordinates, negative ones included: if width and
height are positive, the four byte indices `uvi+0 .. uvi+3` of `get` and `set`
lie below the buffer length and both operations succeed; if the texture is
zero-sized, `get` and `set` return at once whatever the buffer is, the empty
buffer included, so they index nothing. -/
theorem Texture.get_set_in_bounds {α : Type} [LinearOrderedField α] [FloorRing α]
    (t : Texture) (x y : Int) (c : Color α)
    (hinv : 0 < t.m_width → 0 < t.m_height → t.WF) :
    (0 < t.m_width → 0 < t.m_height →
      (∀ k, k < 4 → u32 (t.uvi x y + k) < t.m_pixels.length) ∧
      (∃ c' : Color α, t.get x y = some c') ∧ (∃ t' : Texture, t.set x y c = some t')) ∧
    ((t.m_width = 0 ∨ t.m_height = 0) → ∀ p : List Nat,
      ((⟨t.m_width, t.m_height, p⟩ : Texture).get x y : Option (Color α))
        = some (Color.rgb 0 0 0) ∧
      (⟨t.m_width, t.m_height, p⟩ : Texture).set x y c = some ⟨t.m_width, t.m_height, p⟩) := by
  constructor
  · intro hw hh
    have hwf := hinv hw hh
    have h := (t.uvi_eq x y hw hh hwf.2).2
    have hlen := hwf.1
    have h32 := hwf.2
    refine ⟨?_, t.get_isSome x y hw hh hwf, _, t.set_eq x y c hw hh hwf⟩
    intro k hk
    rw [u32_small _ (by omega)]
    omega
  · intro hz p
    constructor
    · unfold Texture.get; rw [if_pos hz]
    · unfold Texture.set; rw [if_pos hz]

/-- C2 witness: the 2x2 texture built by `Texture(2, 2)`, read and written at `(-1, 5)`. -/
theorem Texture.get_set_in_bounds_witness :
    (0 < (Texture.create 2 2).m_width → 0 < (Texture.create 2 2).m_height →
      (Texture.create 2 2).WF) ∧
    ((0 < (Texture.create 2 2).m_width → 0 < (Texture.create 2 2).m_height →
      (∀ k, k < 4 →
        u32 ((Texture.create 2 2).uvi (-1) 5 + k) < (Texture.create 2 2).m_pixels.length) ∧
      (∃ c' : Color ℚ, (Texture.create 2 2).get (-1) 5 = some c') ∧
      (∃ t' : Texture, (Texture.create 2 2).set (-1) 5 almostRed = some t')) ∧
    (((Texture.create 2 2).m_width = 0 ∨ (Texture.create 2 2).m_height = 0) →
      ∀ p : List Nat,
      ((⟨(Texture.create 2 2).m_width, (Texture.create 2 2).m_height, p⟩ : Texture).get (-1) 5
        : Option (Color ℚ)) = some (Color.rgb 0 0 0) ∧
      (⟨(Texture.create 2 2).m_width, (Texture.create 2 2).m_height, p⟩ : Texture).set (-1) 5
        almostRed = some ⟨(Texture.create 2 2).m_width, (Texture.create 2 2).m_height, p⟩)) :=
  ⟨fun _ _ => by decide,
    Texture.get_set_in_bounds (Texture.create 2 2) (-1) 5 almostRed (fun _ _ => by decide)⟩

/-- C3 (as amended): on a texture of positive width and height whose buffer
holds `width*height*4 < 2^32` bytes, `set(x, y, c)` succeeds and `get(x, y)`
then returns, in each of the four channels, the channel of `c` clamped to
`[0,1]` and rounded down to a multiple of `1/255` (the cast `u8(..)` truncates). -/
theorem Texture.set_get_rounds_down {α : Type} [LinearOrderedField α] [FloorRing α]
    (t : Texture) (x y : Int) (c : Color α)
    (hw : 0 < t.m_width) (hh : 0 < t.m_height) (hwf : t.WF) :
    ∃ t' : Texture, t.set x y c = some t' ∧
      (t'.get x y : Option (Color α)) =
        some ⟨((⌊stdClamp c.r 0 1 * 255⌋ : Int) : α) / 255,
          ((⌊stdClamp c.g 0 1 * 255⌋ : Int) : α) / 255,
          ((⌊stdClamp c.b 0 1 * 255⌋ : Int) : α) / 255,
          ((⌊stdClamp c.a 0 1 * 255⌋ : Int) : α) / 255⟩ :=
  t.set_then_get x y c hw hh hwf

/-- C3 witness: the single-pixel texture written with `almostRed` at `(0, 0)`. -/
theorem Texture.set_get_rounds_down_witness :
    0 < pixel1.m_width ∧ 0 < pixel1.m_height ∧ pixel1.WF ∧
    ∃ t' : Texture, pixel1.set 0 0 almostRed = some t' ∧
      (t'.get 0 0 : Option (Color ℚ)) =
        some ⟨((⌊stdClamp almostRed.r 0 1 * 255⌋ : Int) : ℚ) / 255,
          ((⌊stdClamp almostRed.g 0 1 * 255⌋ : Int) : ℚ) / 255,
          ((⌊stdClamp almostRed.b 0 1 * 255⌋ : Int) : ℚ) / 255,
          ((⌊stdClamp almostRed.a 0 1 * 255⌋ : Int) : ℚ) / 255⟩ :=
  ⟨by decide, by decide, by decide,
    Texture.set_get_rounds_down pixel1 0 0 almostRed (by decide) (by decide)
      (by decide)⟩

/-- C3 counterexample: writing red 0.999 into the single-pixel texture and
reading it back gives red 254/255, while the nearest multiple of 1/255 to
0.999 is 255/255 = 1. -/
theorem Texture.set_get_not_nearest :
    ∃ (t' : Texture) (c' : Color ℚ), pixel1.set 0 0 almostRed = some t' ∧
      t'.get 0 0 = some c' ∧ c'.r = 254 / 255 ∧ nearest255 almostRed.r = 1 ∧
      c'.r ≠ nearest255 almostRed.r := by
  obtain ⟨t', hset, hget⟩ := pixel1.set_then_get 0 0 almostRed (by decide) (by decide)
    (by decide)
  have hc : stdClamp almostRed.r 0 1 * 255 = (50949 : ℚ) / 200 := by
    unfold stdClamp almostRed; norm_num
  have hfl : ⌊(50949 : ℚ) / 200⌋ = 254 := by
    rw [Int.floor_eq_iff]; constructor <;> norm_num
  have hnear : nearest255 almostRed.r = 1 := by
    unfold nearest255
    rw [hc, round_eq]
    have : ⌊(50949 : ℚ) / 200 + 1 / 2⌋ = 255 := by
      rw [Int.floor_eq_iff]; constructor <;> norm_num
    rw [this]; norm_num
  refine ⟨t', _, hset, hget, ?_, hnear, ?_⟩
  · show ((⌊stdClamp almostRed.r 0 1 * 255⌋ : Int) : ℚ) / 255 = 254 / 255
    rw [hc, hfl]; norm_num
  · show ((⌊stdClamp almostRed.r 0 1 * 255⌋ : Int) : ℚ) / 255 ≠ nearest255 almostRed.r
    rw [hc, hfl, hnear]; norm_num

/-- C4 (as amended): on a zero-sized texture (width or height 0, the default
texture included) `get(x, y)` returns opaque black `(0, 0, 0, 1)` for all
`x`, `y`: it returns `Color(0, 0, 0)`, whose alpha defaults to `1.0f`. -/
theorem Texture.get_zero_size_opaque_black {α : Type} [LinearOrderedField α]
    (t : Texture) (x y : Int) (h : t.m_width = 0 ∨ t.m_height = 0) :
    (t.get x y : Option (Color α)) = some ⟨0, 0, 0, 1⟩ :=
  t.get_zero_size x y h

/-- C4 witness: the default texture read at `(5, -7)`. -/
theorem Texture.get_zero_size_opaque_black_witness :
    (Texture.default.m_width = 0 ∨ Texture.default.m_height = 0) ∧
    (Texture.default.get 5 (-7) : Option (Color ℚ)) = some ⟨0, 0, 0, 1⟩ :=
  ⟨Or.inl rfl, Texture.get_zero_size_opaque_black Texture.default 5 (-7) (Or.inl rfl)⟩

/-- C4 counterexample: the default texture read at `(0, 0)` does not give `(0, 0, 0, 0)`. -/
theorem Texture.get_default_not_transparent :
    (Texture.default.get 0 0 : Option (Color ℚ)) ≠ some ⟨0, 0, 0, 0⟩ := by
  rw [Texture.default.get_zero_size 0 0 (Or.inl rfl)]
  intro h
  have ha := congrArg (fun o : Option (Color ℚ) => o.map Color.a) h
  simp only [Option.map_some'] at ha
  norm_num at ha

/-- C5 (evaluation at the failing input): interpolating from opaque black
to opaque white with factor 1 gives white with alpha 0, not the alpha 1 of
the target, because `operator+` keeps the alpha of its left operand, here
`1 * (1 - 1)`. -/
theorem Color.lerp_one_loses_alpha :
    (Color.lerp ⟨0, 0, 0, 1⟩ ⟨1, 1, 1, 1⟩ 1 : Color ℚ) = ⟨1, 1, 1, 0⟩ := by
  unfold Color.lerp Color.add Color.scale
  norm_num

/-! ## The rasterizer -/

section BufferFacts

variable {α : Type} [LinearOrderedField α]

theorem Lowered.refl (ch : Nat) (l : List α) : Lowered ch l l :=
  ⟨rfl, fun _ v' h => ⟨v', h, le_refl _, Or.inl rfl⟩⟩

theorem Lowered.trans {ch : Nat} {a b c : List α} (hab : Lowered ch a b)
    (hbc : Lowered ch b c) : Lowered ch a c := by
  refine ⟨hab.1.trans hbc.1, ?_⟩
  intro j v' hj
  obtain ⟨v, hv, hle, hor⟩ := hab.2 j v' hj
  obtain ⟨w, hw, hle2, hor2⟩ := hbc.2 j v hv
  refine ⟨w, hw, le_trans hle hle2, ?_⟩
  rcases hor with rfl | hin
  · exact hor2
  · exact Or.inr hin

/-- Storing an in-range row below the current entry lowers the buffer. -/
theorem Lowered.set (ch : Nat) (l : List α) (x : Nat) (h top : α) (htop : l[x]? = some top)
    (hlt : h < top) (h0 : 0 ≤ h) (h1 : h ≤ (ch : α)) : Lowered ch (l.set x h) l := by
  refine ⟨List.length_set _ _ _, ?_⟩
  intro j v' hj
  rw [List.getElem?_set] at hj
  split_ifs at hj with hxj hx
  · subst hxj
    injection hj with hj
    subst hj
    exact ⟨top, htop, le_of_lt hlt, Or.inr ⟨h0, h1⟩⟩
  · exact ⟨v', hj, le_refl _, Or.inl rfl⟩

/-- Entries of a lowered buffer are at most the bound that held before. -/
theorem Lowered.le_bound {ch : Nat} {a b : List α} (hab : Lowered ch a b) (bound : α)
    (hb : ∀ v ∈ b, v ≤ bound) : ∀ v ∈ a, v ≤ bound := by
  intro v hv
  obtain ⟨j, hj⟩ := List.mem_iff_getElem?.mp hv
  obtain ⟨w, hw, hle, _⟩ := hab.2 j v hj
  exact le_trans hle (hb w (List.mem_iff_getElem?.mpr ⟨j, hw⟩))

/-- Entries of a lowered buffer stay inside `[0, ch]`. -/
theorem Lowered.in_range {ch : Nat} {a b : List α} (hab : Lowered ch a b)
    (hb : ∀ v ∈ b, 0 ≤ v ∧ v ≤ (ch : α)) : ∀ v ∈ a, 0 ≤ v ∧ v ≤ (ch : α) := by
  intro v hv
  obtain ⟨j, hj⟩ := List.mem_iff_getElem?.mp hv
  obtain ⟨w, hw, _, hor⟩ := hab.2 j v hj
  rcases hor with rfl | hin
  · exact hb v (List.mem_iff_getElem?.mpr ⟨j, hw⟩)
  · exact hin

end BufferFacts

section DrawFacts

variable {α : Type} [LinearOrderedField α] [FloorRing α]

/-- The column body either leaves the state as it is or draws one line and
stores its row `h`, which lies in `[0, ch]` and below the entry it replaces. -/
theorem VoxelTerrain.drawColumn_cases (m : MathFns α) (g : VoxelTerrain α) (cw ch : Nat)
    (f : Frame α) (sl : Slice α) (st st' : DrawState α) (x : Nat)
    (hst : g.drawColumn m cw ch f sl st x = some st') :
    st' = st ∨ ∃ h top r gch b, g.screenRow cw f sl x = some h ∧ st.ybuffer[x]? = some top ∧
      0 ≤ h ∧ h ≤ (ch : α) ∧ h < top ∧
      st' = ⟨st.ybuffer.set x h, st.cmds ++ [DrawCmd.line x h x top r gch b]⟩ := by
  unfold VoxelTerrain.drawColumn at hst
  simp only [Option.bind_eq_bind] at hst
  cases hrow : g.screenRow cw f sl x with
  | none => rw [hrow] at hst; simp at hst
  | some h =>
    rw [hrow] at hst
    simp only [Option.some_bind] at hst
    split_ifs at hst with hout
    · left; injection hst with hst; exact hst.symm
    · cases htex : (g.color.get (truncF ((sl.pleft.lerp sl.pright ((x : α) / (cw : α))).x))
          (truncF ((sl.pleft.lerp sl.pright ((x : α) / (cw : α))).y)) : Option (Color α)) with
      | none => rw [htex] at hst; simp at hst
      | some texel =>
        rw [htex] at hst
        simp only [Option.some_bind] at hst
        cases htop : st.ybuffer[x]? with
        | none => rw [htop] at hst; simp at hst
        | some top =>
          rw [htop] at hst
          simp only [Option.some_bind] at hst
          split_ifs at hst with hlt
          · right
            injection hst with hst
            push_neg at hout
            exact ⟨h, top, _, _, _, rfl, rfl, hout.1, hout.2, hlt, hst.symm⟩
          · left; injection hst with hst; exact hst.symm

/-- A row outside the viewport makes the column body `continue`. -/
theorem VoxelTerrain.drawColumn_skip (m : MathFns α) (g : VoxelTerrain α) (cw ch : Nat)
    (f : Frame α) (sl : Slice α) (st : DrawState α) (x : Nat) (h : α)
    (hrow : g.screenRow cw f sl x = some h) (hout : h < 0 ∨ h > (ch : α)) :
    g.drawColumn m cw ch f sl st x = some st := by
  unfold VoxelTerrain.drawColumn
  simp only [Option.bind_eq_bind, hrow, Option.some_bind]
  rw [if_pos hout]

/-- The column body lowers the occlusion buffer. -/
theorem VoxelTerrain.drawColumn_lowered (m : MathFns α) (g : VoxelTerrain α) (cw ch : Nat)
    (f : Frame α) (sl : Slice α) (st st' : DrawState α) (x : Nat)
    (hst : g.drawColumn m cw ch f sl st x = some st') :
    Lowered ch st'.ybuffer st.ybuffer := by
  rcases g.drawColumn_cases m cw ch f sl st st' x hst with rfl | ⟨h, top, _, _, _, _, htop, h0, h1, hlt, rfl⟩
  · exact Lowered.refl ch _
  · exact Lowered.set ch st.ybuffer x h top htop hlt h0 h1

/-- With well-formed textures the column body has a result at every column of the buffer. -/
theorem VoxelTerrain.drawColumn_total (m : MathFns α) (g : VoxelTerrain α) (cw ch : Nat)
    (f : Frame α) (sl : Slice α) (st : DrawState α) (x : Nat)
    (hH : g.heightmap.WF) (hC : g.color.WF) (hx : x < st.ybuffer.length) :
    ∃ st', g.drawColumn m cw ch f sl st x = some st' := by
  obtain ⟨c, hc⟩ := g.heightmap.get_total (α := α) hH
    (truncF ((sl.pleft.lerp sl.pright ((x : α) / (cw : α))).x))
    (truncF ((sl.pleft.lerp sl.pright ((x : α) / (cw : α))).y))
  obtain ⟨texel, htex⟩ := g.color.get_total (α := α) hC
    (truncF ((sl.pleft.lerp sl.pright ((x : α) / (cw : α))).x))
    (truncF ((sl.pleft.lerp sl.pright ((x : α) / (cw : α))).y))
  have htop : st.ybuffer[x]? = some st.ybuffer[x] := List.getElem?_eq_getElem hx
  unfold VoxelTerrain.drawColumn VoxelTerrain.screenRow
  simp only [Option.bind_eq_bind, hc, htex, htop, Option.some_bind]
  split_ifs <;> exact ⟨_, rfl⟩

/-- The column loop over the columns `l` has a result and lowers the buffer. -/
theorem VoxelTerrain.drawColumns_lowered (m : MathFns α) (g : VoxelTerrain α) (cw ch : Nat)
    (f : Frame α) (sl : Slice α) (hH : g.heightmap.WF) (hC : g.color.WF) (l : List Nat) :
    ∀ st : DrawState α, (∀ x ∈ l, x < st.ybuffer.length) →
      ∃ st', l.foldlM (g.drawColumn m cw ch f sl) st = some st' ∧
        Lowered ch st'.ybuffer st.ybuffer := by
  induction l with
  | nil => intro st _; exact ⟨st, rfl, Lowered.refl ch _⟩
  | cons x l ih =>
    intro st hl
    obtain ⟨st1, h1⟩ := g.drawColumn_total m cw ch f sl st x hH hC (hl x (List.mem_cons_self _ _))
    have low1 := g.drawColumn_lowered m cw ch f sl st st1 x h1
    obtain ⟨st2, h2, low2⟩ := ih st1 (fun y hy => by
      rw [low1.1]; exact hl y (List.mem_cons_of_mem _ hy))
    refine ⟨st2, ?_, low2.trans low1⟩
    rw [List.foldlM_cons, h1]
    exact h2

/-- Whenever the column loop has a result, it lowers the buffer. -/
theorem VoxelTerrain.drawColumns_lowered_of_some (m : MathFns α) (g : VoxelTerrain α)
    (cw ch : Nat) (f : Frame α) (sl : Slice α) (l : List Nat) :
    ∀ st st' : DrawState α, l.foldlM (g.drawColumn m cw ch f sl) st = some st' →
      Lowered ch st'.ybuffer st.ybuffer := by
  induction l with
  | nil =>
    intro st st' h
    injection h with h
    subst h
    exact Lowered.refl ch _
  | cons x l ih =>
    intro st st' h
    rw [List.foldlM_cons] at h
    cases h1 : g.drawColumn m cw ch f sl st x with
    | none => rw [h1] at h; simp at h
    | some st1 =>
      rw [h1] at h
      exact (ih st1 st' h).trans (g.drawColumn_lowered m cw ch f sl st st1 x h1)

/-- One pass of the slice loop has a result and lowers the buffer. -/
theorem VoxelTerrain.drawSlice_lowered (m : MathFns α) (g : VoxelTerrain α) (cw ch : Nat)
    (f : Frame α) (z dz : α) (st : DrawState α) (hH : g.heightmap.WF) (hC : g.color.WF)
    (hlen : st.ybuffer.length = cw) :
    ∃ st', g.drawSlice m cw ch f z dz st = some st' ∧ Lowered ch st'.ybuffer st.ybuffer :=
  g.drawColumns_lowered m cw ch f (g.slice f z dz) hH hC (List.range cw) st
    (fun x hx => by rw [hlen]; exact List.mem_range.mp hx)

/-- The slice loop reaches its exit within the fuel and lowers the buffer. -/
theorem VoxelTerrain.sliceLoop_lowered (m : MathFns α) (g : VoxelTerrain α) (cw ch : Nat)
    (f : Frame α) (hH : g.heightmap.WF) (hC : g.color.WF) (fuel : Nat) :
    ∀ (z dz : α) (st : DrawState α), 1 ≤ dz → g.distance ≤ z + (fuel : α) →
      st.ybuffer.length = cw →
      ∃ st', g.sliceLoop m cw ch f (fuel + 1) z dz st = some st' ∧
        Lowered ch st'.ybuffer st.ybuffer := by
  induction fuel with
  | zero =>
    intro z dz st _ hz _
    refine ⟨st, ?_, Lowered.refl ch _⟩
    have hnot : ¬ z < g.distance := by
      simp only [Nat.cast_zero, add_zero] at hz
      exact not_lt.mpr hz
    unfold VoxelTerrain.sliceLoop
    rw [if_neg hnot]
  | succ fuel ih =>
    intro z dz st hdz hz hlen
    by_cases hlt : z < g.distance
    · obtain ⟨st1, h1, low1⟩ := g.drawSlice_lowered m cw ch f z dz st hH hC hlen
      have hdz' : (1 : α) ≤ dz + 1 / 1000 := by
        have : (0 : α) ≤ 1 / 1000 := by norm_num
        linarith
      have hz' : g.distance ≤ z + (dz + 1 / 1000) + (fuel : α) := by
        push_cast at hz
        linarith
      obtain ⟨st2, h2, low2⟩ := ih (z + (dz + 1 / 1000)) (dz + 1 / 1000) st1 hdz' hz'
        (low1.1.trans hlen)
      refine ⟨st2, ?_, low2.trans low1⟩
      rw [VoxelTerrain.sliceLoop, if_pos hlt]
      simp only [Option.bind_eq_bind, h1, Option.some_bind]
      exact h2
    · refine ⟨st, ?_, Lowered.refl ch _⟩
      rw [VoxelTerrain.sliceLoop, if_neg hlt]

/-- With well-formed textures `onDraw` has a result, whose occlusion buffer
is the initial one lowered. -/
theorem VoxelTerrain.onDraw_lowered (m : MathFns α) (g : VoxelTerrain α) (cw ch : Nat)
    (hH : g.heightmap.WF) (hC : g.color.WF) :
    ∃ st, g.onDraw m cw ch = some st ∧ Lowered ch st.ybuffer (g.drawInit cw ch).ybuffer := by
  have hlen : (g.drawInit cw ch).ybuffer.length = cw := by
    unfold VoxelTerrain.drawInit; exact List.length_replicate _ _
  have hfuel : g.distance ≤ 1 + ((Nat.ceil g.distance : Nat) : α) := by
    have := Nat.le_ceil g.distance
    linarith
  obtain ⟨st, hst, low⟩ := g.sliceLoop_lowered m cw ch (g.frame m ch) hH hC (Nat.ceil g.distance)
    1 1 (g.drawInit cw ch) (le_refl _) hfuel hlen
  have hres : g.onDraw m cw ch = some ⟨st.ybuffer, st.cmds ++
      [DrawCmd.str 'X' g.camPos.x 10 10, DrawCmd.str 'Y' g.camPos.y 10 20]⟩ := by
    unfold VoxelTerrain.onDraw
    simp only [Option.bind_eq_bind, hst, Option.some_bind]
  exact ⟨_, hres, low⟩

/-- In the flat-terrain scenario (state as constructed, canvas height 600,
heightmap of constant red byte `p`) the row of every column in the slice
`z = 1` is `(120 - p) * 120 + 300`. -/
theorem VoxelTerrain.flat_row (m : MathFns α) (hm col : Texture) (p cw x : Nat)
    (hw : 0 < hm.m_width) (hh : 0 < hm.m_height) (hwf : hm.WF) (hred : hm.RedConst p) :
    (VoxelTerrain.init hm col : VoxelTerrain α).screenRow cw
      ((VoxelTerrain.init hm col : VoxelTerrain α).frame m 600)
      ((VoxelTerrain.init hm col : VoxelTerrain α).slice
        ((VoxelTerrain.init hm col : VoxelTerrain α).frame m 600) 1 1) x
      = some ((120 - (p : α)) * 120 + 300) := by
  unfold VoxelTerrain.screenRow
  simp only [Option.bind_eq_bind]
  obtain ⟨c, hc, hcr⟩ := hm.get_red_const (α := α) p
    (truncF (((((VoxelTerrain.init hm col : VoxelTerrain α).slice
        ((VoxelTerrain.init hm col : VoxelTerrain α).frame m 600) 1 1).pleft).lerp
      (((VoxelTerrain.init hm col : VoxelTerrain α).slice
        ((VoxelTerrain.init hm col : VoxelTerrain α).frame m 600) 1 1).pright)
      ((x : α) / (cw : α))).x))
    (truncF (((((VoxelTerrain.init hm col : VoxelTerrain α).slice
        ((VoxelTerrain.init hm col : VoxelTerrain α).frame m 600) 1 1).pleft).lerp
      (((VoxelTerrain.init hm col : VoxelTerrain α).slice
        ((VoxelTerrain.init hm col : VoxelTerrain α).frame m 600) 1 1).pright)
      ((x : α) / (cw : α))).y)) hw hh hwf hred
  have hmap : (VoxelTerrain.init hm col : VoxelTerrain α).heightmap = hm := rfl
  rw [hmap, hc]
  simp only [Option.some_bind, hcr, VoxelTerrain.init, VoxelTerrain.slice, VoxelTerrain.frame]
  norm_num

end DrawFacts

/-! ## The camera controller -/

section UpdateFacts

variable {α : Type} [LinearOrderedField α]

/-- With the left key held, one `onUpdate` blends `turning.y` toward 1 by 0.1
and then damps it by 0.9, whatever the other keys and `dt`. -/
theorem VoxelTerrain.onUpdate_turning_y_left (m : MathFns α) (g : VoxelTerrain α) (keys : Keys)
    (dt : α) (hleft : keys.left = true) :
    (g.onUpdate m keys dt).turning.y = xlerp g.turning.y 1 (1 / 10) * (9 / 10) := by
  unfold VoxelTerrain.onUpdate
  simp only [hleft, if_true]
  cases keys.down <;> cases keys.up <;> simp [Vec3.scale]

/-- With the left key held throughout and `turning.y` starting at 0, the value
after `n` updates is `9/19 * (1 - (81/100)^n)`. -/
theorem VoxelTerrain.updates_turning_y_left (m : MathFns α) (g : VoxelTerrain α)
    (keys : Nat → Keys) (dt : Nat → α) (h0 : g.turning = ⟨0, 0, 0⟩)
    (hleft : ∀ i, (keys i).left = true) (n : Nat) :
    (g.updates m keys dt n).turning.y = 9 / 19 * (1 - (81 / 100) ^ n) := by
  induction n with
  | zero => simp [VoxelTerrain.updates, h0]
  | succ n ih =>
    rw [VoxelTerrain.updates, VoxelTerrain.onUpdate_turning_y_left m _ _ _ (hleft n), ih]
    unfold xlerp
    ring

/-- With the left key held throughout from rest, `turning.y` tends to `9/19`. -/
theorem VoxelTerrain.turning_y_tendsto [TopologicalSpace α] [OrderTopology α] [Archimedean α]
    (m : MathFns α) (g : VoxelTerrain α) (keys : Nat → Keys) (dt : Nat → α)
    (h0 : g.turning = ⟨0, 0, 0⟩) (hleft : ∀ i, (keys i).left = true) :
    Filter.Tendsto (fun n => (g.updates m keys dt n).turning.y) Filter.atTop
      (nhds (9 / 19 : α)) := by
  have hfun : (fun n => (g.updates m keys dt n).turning.y)
      = fun n => (9 / 19 : α) * (1 - (81 / 100) ^ n) := by
    funext n
    exact g.updates_turning_y_left m keys dt h0 hleft n
  rw [hfun]
  have hpow : Filter.Tendsto (fun n : Nat => ((81 / 100 : α)) ^ n) Filter.atTop (nhds 0) :=
    tendsto_pow_atTop_nhds_zero_of_lt_one (by norm_num) (by norm_num)
  have h1 : Filter.Tendsto (fun n : Nat => (9 / 19 : α) * (1 - (81 / 100) ^ n)) Filter.atTop
      (nhds ((9 / 19 : α) * (1 - 0))) :=
    (tendsto_const_nhds.sub hpow).const_mul _
  simpa using h1

end UpdateFacts

/-! ## Claims on the rasterizer -/

/-- C6: with well-formed textures, for every camera state and viewport:
every column of the occlusion buffer starts at the viewport height; each
pass of the slice loop returns a buffer in which no column is larger than
before the pass; and `onDraw` returns, with every column of the final buffer
at most the viewport height. -/
theorem VoxelTerrain.onDraw_occlusion_monotonic {α : Type} [LinearOrderedField α] [FloorRing α]
    (m : MathFns α) (g : VoxelTerrain α) (cw ch : Nat)
    (hH : g.heightmap.WF) (hC : g.color.WF) :
    (∀ x, x < cw → (g.drawInit cw ch).ybuffer[x]? = some (ch : α)) ∧
    (∀ (z dz : α) (st : DrawState α), st.ybuffer.length = cw →
      ∃ st', g.drawSlice m cw ch (g.frame m ch) z dz st = some st' ∧
        ∀ x, x < cw → ∃ v v' : α, st.ybuffer[x]? = some v ∧ st'.ybuffer[x]? = some v' ∧
          v' ≤ v) ∧
    (∃ st, g.onDraw m cw ch = some st ∧ st.ybuffer.length = cw ∧
      ∀ x, x < cw → ∃ v : α, st.ybuffer[x]? = some v ∧ v ≤ (ch : α)) := by
  have hinit : ∀ x, x < cw → (g.drawInit cw ch).ybuffer[x]? = some (ch : α) := by
    intro x hx
    unfold VoxelTerrain.drawInit
    rw [List.getElem?_replicate, if_pos hx]
  have hlen0 : (g.drawInit cw ch).ybuffer.length = cw := by
    unfold VoxelTerrain.drawInit; exact List.length_replicate _ _
  refine ⟨hinit, ?_, ?_⟩
  · intro z dz st hlen
    obtain ⟨st', hst', low⟩ := g.drawSlice_lowered m cw ch (g.frame m ch) z dz st hH hC hlen
    refine ⟨st', hst', ?_⟩
    intro x hx
    have hx' : x < st'.ybuffer.length := by rw [low.1, hlen]; exact hx
    obtain ⟨v, hv, hle, _⟩ := low.2 x _ (List.getElem?_eq_getElem hx')
    exact ⟨v, _, hv, List.getElem?_eq_getElem hx', hle⟩
  · obtain ⟨st, hst, low⟩ := g.onDraw_lowered m cw ch hH hC
    refine ⟨st, hst, low.1.trans hlen0, ?_⟩
    intro x hx
    have hx' : x < st.ybuffer.length := by rw [low.1, hlen0]; exact hx
    obtain ⟨v, hv, hle, _⟩ := low.2 x _ (List.getElem?_eq_getElem hx')
    rw [hinit x hx] at hv
    injection hv with hv
    exact ⟨_, List.getElem?_eq_getElem hx', hv ▸ hle⟩

/-- C6 witness: the renderer as constructed over one-pixel textures, on a 2x4 canvas. -/
theorem VoxelTerrain.onDraw_occlusion_monotonic_witness :
    demoGame.heightmap.WF ∧ demoGame.color.WF ∧
    ((∀ x, x < 2 → (demoGame.drawInit 2 4).ybuffer[x]? = some ((4 : Nat) : ℚ)) ∧
    (∀ (z dz : ℚ) (st : DrawState ℚ), st.ybuffer.length = 2 →
      ∃ st', demoGame.drawSlice yawZeroMath 2 4 (demoGame.frame yawZeroMath 4) z dz st = some st' ∧
        ∀ x, x < 2 → ∃ v v' : ℚ, st.ybuffer[x]? = some v ∧ st'.ybuffer[x]? = some v' ∧
          v' ≤ v) ∧
    (∃ st, demoGame.onDraw yawZeroMath 2 4 = some st ∧ st.ybuffer.length = 2 ∧
      ∀ x, x < 2 → ∃ v : ℚ, st.ybuffer[x]? = some v ∧ v ≤ ((4 : Nat) : ℚ))) :=
  ⟨by decide, by decide,
    VoxelTerrain.onDraw_occlusion_monotonic yawZeroMath demoGame 2 4
      (by decide) (by decide)⟩

/-- C7: with well-formed textures, for every camera state and viewport: a
column whose row `h` has `h < 0` or `h > viewportHeight` leaves the state as
it is (no line, same occlusion buffer); the initial buffer holds values in
`[0, viewportHeight]`, the column body keeps the buffer inside that interval,
and so is every value of the buffer that `onDraw` returns. -/
theorem VoxelTerrain.onDraw_rows_in_viewport {α : Type} [LinearOrderedField α] [FloorRing α]
    (m : MathFns α) (g : VoxelTerrain α) (cw ch : Nat)
    (hH : g.heightmap.WF) (hC : g.color.WF) :
    (∀ (f : Frame α) (sl : Slice α) (st : DrawState α) (x : Nat) (h : α),
      g.screenRow cw f sl x = some h → (h < 0 ∨ h > (ch : α)) →
      g.drawColumn m cw ch f sl st x = some st) ∧
    (∀ v ∈ (g.drawInit cw ch).ybuffer, 0 ≤ v ∧ v ≤ (ch : α)) ∧
    (∀ (f : Frame α) (sl : Slice α) (st st' : DrawState α) (x : Nat),
      g.drawColumn m cw ch f sl st x = some st' →
      (∀ v ∈ st.ybuffer, 0 ≤ v ∧ v ≤ (ch : α)) → ∀ v ∈ st'.ybuffer, 0 ≤ v ∧ v ≤ (ch : α)) ∧
    (∃ st, g.onDraw m cw ch = some st ∧ ∀ v ∈ st.ybuffer, 0 ≤ v ∧ v ≤ (ch : α)) := by
  have hinit : ∀ v ∈ (g.drawInit cw ch).ybuffer, 0 ≤ v ∧ v ≤ (ch : α) := by
    intro v hv
    unfold VoxelTerrain.drawInit at hv
    rw [List.eq_of_mem_replicate hv]
    exact ⟨Nat.cast_nonneg ch, le_refl _⟩
  refine ⟨?_, hinit, ?_, ?_⟩
  · intro f sl st x h hrow hout
    exact g.drawColumn_skip m cw ch f sl st x h hrow hout
  · intro f sl st st' x hst hin
    exact (g.drawColumn_lowered m cw ch f sl st st' x hst).in_range hin
  · obtain ⟨st, hst, low⟩ := g.onDraw_lowered m cw ch hH hC
    exact ⟨st, hst, low.in_range hinit⟩

/-- C7 witness: the renderer as constructed over one-pixel textures, on a 2x4 canvas. -/
theorem VoxelTerrain.onDraw_rows_in_viewport_witness :
    demoGame.heightmap.WF ∧ demoGame.color.WF ∧
    ((∀ (f : Frame ℚ) (sl : Slice ℚ) (st : DrawState ℚ) (x : Nat) (h : ℚ),
      demoGame.screenRow 2 f sl x = some h → (h < 0 ∨ h > ((4 : Nat) : ℚ)) →
      demoGame.drawColumn yawZeroMath 2 4 f sl st x = some st) ∧
    (∀ v ∈ (demoGame.drawInit 2 4).ybuffer, 0 ≤ v ∧ v ≤ ((4 : Nat) : ℚ)) ∧
    (∀ (f : Frame ℚ) (sl : Slice ℚ) (st st' : DrawState ℚ) (x : Nat),
      demoGame.drawColumn yawZeroMath 2 4 f sl st x = some st' →
      (∀ v ∈ st.ybuffer, 0 ≤ v ∧ v ≤ ((4 : Nat) : ℚ)) →
      ∀ v ∈ st'.ybuffer, 0 ≤ v ∧ v ≤ ((4 : Nat) : ℚ)) ∧
    (∃ st, demoGame.onDraw yawZeroMath 2 4 = some st ∧
      ∀ v ∈ st.ybuffer, 0 ≤ v ∧ v ≤ ((4 : Nat) : ℚ))) :=
  ⟨by decide, by decide,
    VoxelTerrain.onDraw_rows_in_viewport yawZeroMath demoGame 2 4
      (by decide) (by decide)⟩

/-- C8 (as amended): in the flat-terrain scenario (800x600 viewport, state as
constructed: camera (160,120,120), tilt 1, yaw 0, roll 0, distance 800,
scaleHeight 120) over a well-formed heightmap whose red byte is the constant
`p` (red value `p/255`), the row `h` of every column in the nearest slice
`z = 1` is `(120 - p) * 120 + 300`; it is 300 only for `p = 120`, and for
`p > 122` (mid grey included) it is negative, so that slice draws nothing. -/
theorem VoxelTerrain.flat_terrain_nearest_row {α : Type} [LinearOrderedField α] [FloorRing α]
    (m : MathFns α) (hm col : Texture) (p x : Nat)
    (hw : 0 < hm.m_width) (hh : 0 < hm.m_height) (hwf : hm.WF) (hred : hm.RedConst p) :
    (VoxelTerrain.init hm col : VoxelTerrain α).screenRow 800
      ((VoxelTerrain.init hm col : VoxelTerrain α).frame m 600)
      ((VoxelTerrain.init hm col : VoxelTerrain α).slice
        ((VoxelTerrain.init hm col : VoxelTerrain α).frame m 600) 1 1) x
      = some ((120 - (p : α)) * 120 + 300) ∧
    ((120 - (p : α)) * 120 + 300 = 300 ↔ p = 120) ∧
    (122 < p → ∀ st : DrawState α,
      (VoxelTerrain.init hm col : VoxelTerrain α).drawColumn m 800 600
        ((VoxelTerrain.init hm col : VoxelTerrain α).frame m 600)
        ((VoxelTerrain.init hm col : VoxelTerrain α).slice
          ((VoxelTerrain.init hm col : VoxelTerrain α).frame m 600) 1 1) st x = some st) := by
  have hrow := VoxelTerrain.flat_row m hm col p 800 x hw hh hwf hred
  refine ⟨hrow, ?_, ?_⟩
  · constructor
    · intro h
      have h1 : (p : α) = ((120 : Nat) : α) := by push_cast; linarith
      exact Nat.cast_injective h1
    · intro h; subst h; norm_num
  · intro hp st
    refine VoxelTerrain.drawColumn_skip m _ 800 600 _ _ st x _ hrow (Or.inl ?_)
    have h1 : ((123 : Nat) : α) ≤ (p : α) := Nat.cast_le.mpr hp
    push_cast at h1
    linarith

/-- C8 witness: the one-pixel heightmap of red byte 128, column 0. -/
theorem VoxelTerrain.flat_terrain_nearest_row_witness :
    0 < flat128.m_width ∧ 0 < flat128.m_height ∧ flat128.WF ∧ flat128.RedConst 128 ∧
    ((VoxelTerrain.init flat128 pixel1 : VoxelTerrain ℚ).screenRow 800
      ((VoxelTerrain.init flat128 pixel1 : VoxelTerrain ℚ).frame yawZeroMath 600)
      ((VoxelTerrain.init flat128 pixel1 : VoxelTerrain ℚ).slice
        ((VoxelTerrain.init flat128 pixel1 : VoxelTerrain ℚ).frame yawZeroMath 600) 1 1) 0
      = some ((120 - ((128 : Nat) : ℚ)) * 120 + 300) ∧
    ((120 - ((128 : Nat) : ℚ)) * 120 + 300 = 300 ↔ 128 = 120) ∧
    (122 < 128 → ∀ st : DrawState ℚ,
      (VoxelTerrain.init flat128 pixel1 : VoxelTerrain ℚ).drawColumn yawZeroMath 800 600
        ((VoxelTerrain.init flat128 pixel1 : VoxelTerrain ℚ).frame yawZeroMath 600)
        ((VoxelTerrain.init flat128 pixel1 : VoxelTerrain ℚ).slice
          ((VoxelTerrain.init flat128 pixel1 : VoxelTerrain ℚ).frame yawZeroMath 600) 1 1) st 0
        = some st)) :=
  ⟨by decide, by decide, by decide, by decide,
    VoxelTerrain.flat_terrain_nearest_row yawZeroMath flat128 pixel1 128 0 (by decide)
      (by decide) (by decide) (by decide)⟩

/-- C8 counterexample: in the scenario, over the mid-grey heightmaps of red
byte 128 (red 0.502) and 127 (red 0.498), the row of column 0 in the nearest
slice is -660 and -540, not 300. -/
theorem VoxelTerrain.flat_terrain_row_not_300 :
    (VoxelTerrain.init flat128 pixel1 : VoxelTerrain ℚ).screenRow 800
      ((VoxelTerrain.init flat128 pixel1 : VoxelTerrain ℚ).frame yawZeroMath 600)
      ((VoxelTerrain.init flat128 pixel1 : VoxelTerrain ℚ).slice
        ((VoxelTerrain.init flat128 pixel1 : VoxelTerrain ℚ).frame yawZeroMath 600) 1 1) 0
      = some (-660) ∧
    (VoxelTerrain.init flat127 pixel1 : VoxelTerrain ℚ).screenRow 800
      ((VoxelTerrain.init flat127 pixel1 : VoxelTerrain ℚ).frame yawZeroMath 600)
      ((VoxelTerrain.init flat127 pixel1 : VoxelTerrain ℚ).slice
        ((VoxelTerrain.init flat127 pixel1 : VoxelTerrain ℚ).frame yawZeroMath 600) 1 1) 0
      = some (-540) ∧ (-660 : ℚ) ≠ 300 ∧ (-540 : ℚ) ≠ 300 := by
  have red128 : flat128.RedConst 128 := by decide
  have red127 : flat127.RedConst 127 := by decide
  refine ⟨?_, ?_, by norm_num, by norm_num⟩
  · rw [VoxelTerrain.flat_row yawZeroMath flat128 pixel1 128 800 0 (by decide) (by decide)
      (by decide) red128]
    norm_num
  · rw [VoxelTerrain.flat_row yawZeroMath flat127 pixel1 127 800 0 (by decide) (by decide)
      (by decide) red127]
    norm_num

/-! ## Claims on the camera controller -/

/-- C10 (as amended): starting from `turning = (0,0,0)` with turn-left held on
every call of `onUpdate`, the values of `turning.y` after each update converge
to `9/19` (about 0.474), the fixed point of `y ↦ 0.9 * (0.9 * y + 0.1)`: each
update blends toward 1.0 and then damps by 0.9. -/
theorem VoxelTerrain.turning_y_converges {α : Type} [LinearOrderedField α]
    [TopologicalSpace α] [OrderTopology α] [Archimedean α]
    (m : MathFns α) (g : VoxelTerrain α) (keys : Nat → Keys) (dt : Nat → α)
    (h0 : g.turning = ⟨0, 0, 0⟩) (hleft : ∀ i, (keys i).left = true) :
    Filter.Tendsto (fun n => (g.updates m keys dt n).turning.y) Filter.atTop
      (nhds (9 / 19 : α)) :=
  g.turning_y_tendsto m keys dt h0 hleft

/-- C10 witness: the renderer as constructed, left held at `dt = 1/60`. -/
theorem VoxelTerrain.turning_y_converges_witness :
    demoGame.turning = ⟨0, 0, 0⟩ ∧ (∀ i : Nat, ((fun _ => leftHeld) i : Keys).left = true) ∧
    Filter.Tendsto
      (fun n => (demoGame.updates yawZeroMath (fun _ => leftHeld) (fun _ => 1 / 60) n).turning.y)
      Filter.atTop (nhds (9 / 19 : ℚ)) :=
  ⟨rfl, fun _ => rfl,
    VoxelTerrain.turning_y_converges yawZeroMath demoGame (fun _ => leftHeld)
      (fun _ => 1 / 60) rfl (fun _ => rfl)⟩

/-- C10 counterexample: for the renderer as constructed, with left held at
`dt = 1/60` on every update, `turning.y` does not converge to 1. -/
theorem VoxelTerrain.turning_y_not_to_one :
    ¬ Filter.Tendsto
      (fun n => (demoGame.updates yawZeroMath (fun _ => leftHeld) (fun _ => 1 / 60) n).turning.y)
      Filter.atTop (nhds (1 : ℚ)) := by
  intro h
  have h' := demoGame.turning_y_tendsto yawZeroMath (fun _ => leftHeld) (fun _ => 1 / 60)
    rfl (fun _ => rfl)
  have := tendsto_nhds_unique h h'
  norm_num at this

/-! ## The camera controller, continued -/

section UpdateFacts2

variable {α : Type} [LinearOrderedField α]

/-- The function `std::clamp` returns a value between its bounds. -/
theorem stdClamp_mem (v lo hi : α) (h : lo ≤ hi) :
    lo ≤ stdClamp v lo hi ∧ stdClamp v lo hi ≤ hi := by
  unfold stdClamp
  split_ifs with h1 h2
  · exact ⟨le_refl _, h⟩
  · exact ⟨h, le_refl _⟩
  · exact ⟨not_lt.mp h1, not_lt.mp h2⟩

/-- With no key held, one `onUpdate` only damps `turning` by 0.9. -/
theorem VoxelTerrain.onUpdate_turning_idle (m : MathFns α) (g : VoxelTerrain α) (dt : α) :
    (g.onUpdate m noKeys dt).turning = g.turning.scale (9 / 10) := by
  unfold VoxelTerrain.onUpdate noKeys
  simp

/-- With no key held on any call, `n` updates scale `turning` by `0.9^n`. -/
theorem VoxelTerrain.updates_turning_idle (m : MathFns α) (g : VoxelTerrain α)
    (keys : Nat → Keys) (dt : Nat → α) (hidle : ∀ i, keys i = noKeys) (n : Nat) :
    (g.updates m keys dt n).turning = g.turning.scale ((9 / 10) ^ n) := by
  induction n with
  | zero => simp [VoxelTerrain.updates, Vec3.scale]
  | succ n ih =>
    rw [VoxelTerrain.updates, hidle n, VoxelTerrain.onUpdate_turning_idle, ih]
    simp only [Vec3.scale, pow_succ, mul_assoc]

end UpdateFacts2

/-! ## Claims on the camera controller, continued -/

/-- C11: from every camera state, `n` consecutive calls of `onUpdate` with no
key held (any `dt`) multiply each of the three components of `turning` by
exactly `0.9^n`; after 60 such calls the magnitude of `turning.y` is at most
0.002 times its magnitude at release, and strictly below it unless
`turning.y` was already 0 (both sides are then 0). -/
theorem VoxelTerrain.released_keys_coast {α : Type} [LinearOrderedField α]
    (m : MathFns α) (g : VoxelTerrain α) (keys : Nat → Keys) (dt : Nat → α)
    (hidle : ∀ i, keys i = noKeys) (n : Nat) :
    (g.updates m keys dt n).turning
        = ⟨g.turning.x * (9 / 10) ^ n, g.turning.y * (9 / 10) ^ n, g.turning.z * (9 / 10) ^ n⟩ ∧
      |(g.updates m keys dt 60).turning.y| ≤ 2 / 1000 * |g.turning.y| ∧
      (g.turning.y ≠ 0 → |(g.updates m keys dt 60).turning.y| < 2 / 1000 * |g.turning.y|) := by
  have hpow : ((9 / 10 : α)) ^ 60 < 2 / 1000 := by norm_num
  have hpos : (0 : α) ≤ (9 / 10) ^ 60 := by positivity
  have h60 : |(g.updates m keys dt 60).turning.y| = (9 / 10) ^ 60 * |g.turning.y| := by
    rw [g.updates_turning_idle m keys dt hidle 60]
    simp only [Vec3.scale]
    rw [abs_mul, abs_of_nonneg hpos, mul_comm]
  refine ⟨?_, ?_, ?_⟩
  · rw [g.updates_turning_idle m keys dt hidle n]
    rfl
  · rw [h60]
    exact mul_le_mul_of_nonneg_right (le_of_lt hpow) (abs_nonneg _)
  · intro hy
    rw [h60]
    exact mul_lt_mul_of_pos_right hpow (abs_pos.mpr hy)

/-- C11 witness: the renderer with `turning = (1, -2, 70)`, keys released, `dt = 1/60`, `n = 3`. -/
theorem VoxelTerrain.released_keys_coast_witness :
    (∀ i : Nat, ((fun _ => noKeys) i : Keys) = noKeys) ∧
    (({ demoGame with turning := ⟨1, -2, 70⟩ } : VoxelTerrain ℚ).updates yawZeroMath
          (fun _ => noKeys) (fun _ => 1 / 60) 3).turning
        = ⟨({ demoGame with turning := ⟨1, -2, 70⟩ } : VoxelTerrain ℚ).turning.x * (9 / 10) ^ 3,
          ({ demoGame with turning := ⟨1, -2, 70⟩ } : VoxelTerrain ℚ).turning.y * (9 / 10) ^ 3,
          ({ demoGame with turning := ⟨1, -2, 70⟩ } : VoxelTerrain ℚ).turning.z * (9 / 10) ^ 3⟩ ∧
      |(({ demoGame with turning := ⟨1, -2, 70⟩ } : VoxelTerrain ℚ).updates yawZeroMath
          (fun _ => noKeys) (fun _ => 1 / 60) 60).turning.y|
        ≤ 2 / 1000 * |({ demoGame with turning := ⟨1, -2, 70⟩ } : VoxelTerrain ℚ).turning.y| ∧
      (({ demoGame with turning := ⟨1, -2, 70⟩ } : VoxelTerrain ℚ).turning.y ≠ 0 →
        |(({ demoGame with turning := ⟨1, -2, 70⟩ } : VoxelTerrain ℚ).updates yawZeroMath
          (fun _ => noKeys) (fun _ => 1 / 60) 60).turning.y|
        < 2 / 1000 * |({ demoGame with turning := ⟨1, -2, 70⟩ } : VoxelTerrain ℚ).turning.y|) :=
  ⟨fun _ => rfl,
    VoxelTerrain.released_keys_coast yawZeroMath
      ({ demoGame with turning := ⟨1, -2, 70⟩ } : VoxelTerrain ℚ)
      (fun _ => noKeys) (fun _ => 1 / 60) (fun _ => rfl) 3⟩

/-- C12: for every camera state, every `dt` and every combination of held
keys, the tilt `camRot.x` after `onUpdate` lies in `[0, 2]`. -/
theorem VoxelTerrain.tilt_in_range {α : Type} [LinearOrderedField α]
    (m : MathFns α) (g : VoxelTerrain α) (keys : Keys) (dt : α) :
    0 ≤ (g.onUpdate m keys dt).camRot.x ∧ (g.onUpdate m keys dt).camRot.x ≤ 2 := by
  unfold VoxelTerrain.onUpdate
  exact stdClamp_mem _ 0 2 (by norm_num)

/-- The real sine, cosine and square root satisfy `MathFns.Exact`. -/
theorem realMath_exact :
    MathFns.Exact (⟨Real.sin, Real.cos, Real.tan, Real.exp, Real.sqrt,
      fun y x => Complex.arg ⟨x, y⟩, Real.pi⟩ : MathFns ℝ) where
  sin_sq_add_cos_sq := fun a => by
    have h := Real.sin_sq_add_cos_sq a
    simp only [pow_two] at h
    exact h
  sin_neg := fun a => Real.sin_neg a
  cos_neg := fun a => Real.cos_neg a
  sqrt_mul_self := fun _ h => Real.sqrt_mul_self h
  mul_self_sqrt := fun _ h => Real.mul_self_sqrt h

section VectorFacts

variable {α : Type} [LinearOrderedField α]

/-- The position update of `onUpdate` adds `dir * dt * moveSpeed`. -/
theorem VoxelTerrain.onUpdate_camPos (m : MathFns α) (g : VoxelTerrain α) (keys : Keys) (dt : α) :
    (g.onUpdate m keys dt).camPos = g.camPos.add (((g.forward m).scale dt).scale g.moveSpeed) :=
  rfl

/-- The forward direction has squared length 1. -/
theorem VoxelTerrain.forward_dot_self (m : MathFns α) (hm : m.Exact) (g : VoxelTerrain α) :
    (g.forward m).dot (g.forward m) = 1 := by
  have h1 := hm.sin_sq_add_cos_sq (-g.camRot.y)
  have h2 := hm.sin_sq_add_cos_sq (((g.camRot.x / 2) * 2 - 1) * m.pi * (1 / 4))
  simp only [VoxelTerrain.forward, Mat3.mul, Mat3.mulVec, Mat3.rotationZ, Mat3.rotationX,
    Vec3.dot]
  linear_combination (m.cosf (((g.camRot.x / 2) * 2 - 1) * m.pi * (1 / 4))
    * m.cosf (((g.camRot.x / 2) * 2 - 1) * m.pi * (1 / 4))) * h1 + h2

/-- A non-zero vector has a positive dot product with itself. -/
theorem Vec3.dot_self_pos (v : Vec3 α) (hv : v.x ≠ 0 ∨ v.y ≠ 0 ∨ v.z ≠ 0) : 0 < v.dot v := by
  unfold Vec3.dot
  rcases hv with h | h | h
  · have := mul_self_pos.mpr h
    nlinarith [mul_self_nonneg v.y, mul_self_nonneg v.z]
  · have := mul_self_pos.mpr h
    nlinarith [mul_self_nonneg v.x, mul_self_nonneg v.z]
  · have := mul_self_pos.mpr h
    nlinarith [mul_self_nonneg v.x, mul_self_nonneg v.y]

end VectorFacts

/-! ## Claims on vectors, matrices and the position update -/

/-- C14: over real arithmetic, for every camera state and every `dt ≥ 0` (the
member `moveSpeed`, initialised to 60 and never written, being non-negative):
the forward direction `RotationZ(-yaw) * RotationX(rx) * (0,1,0)` has length 1,
`onUpdate` adds `dir * dt * moveSpeed` to `camPos`, and that displacement has
Euclidean length exactly `dt * moveSpeed`. -/
theorem VoxelTerrain.constant_speed_advance {α : Type} [LinearOrderedField α]
    (m : MathFns α) (hm : m.Exact) (g : VoxelTerrain α) (keys : Keys) (dt : α)
    (hdt : 0 ≤ dt) (hs : 0 ≤ g.moveSpeed) :
    (g.forward m).length m = 1 ∧
      (g.onUpdate m keys dt).camPos
        = g.camPos.add (((g.forward m).scale dt).scale g.moveSpeed) ∧
      ((g.onUpdate m keys dt).camPos.sub g.camPos).length m = dt * g.moveSpeed := by
  have hdot := g.forward_dot_self m hm
  refine ⟨?_, rfl, ?_⟩
  · unfold Vec3.length
    rw [hdot]
    have := hm.sqrt_mul_self 1 zero_le_one
    simpa using this
  · rw [g.onUpdate_camPos m keys dt]
    unfold Vec3.length
    have hsq : ((g.camPos.add (((g.forward m).scale dt).scale g.moveSpeed)).sub g.camPos).dot
        ((g.camPos.add (((g.forward m).scale dt).scale g.moveSpeed)).sub g.camPos)
        = (dt * g.moveSpeed) * (dt * g.moveSpeed) := by
      simp only [Vec3.dot, Vec3.add, Vec3.sub, Vec3.scale] at hdot ⊢
      linear_combination (dt * g.moveSpeed) * (dt * g.moveSpeed) * hdot
    rw [hsq]
    exact hm.sqrt_mul_self _ (mul_nonneg hdt hs)

/-- C14 witness: the real `<cmath>` functions, the renderer as constructed, `dt = 1/60`. -/
theorem VoxelTerrain.constant_speed_advance_witness :
    MathFns.Exact (⟨Real.sin, Real.cos, Real.tan, Real.exp, Real.sqrt,
      fun y x => Complex.arg ⟨x, y⟩, Real.pi⟩ : MathFns ℝ) ∧
    (0 : ℝ) ≤ 1 / 60 ∧ 0 ≤ (VoxelTerrain.init pixel1 pixel1 : VoxelTerrain ℝ).moveSpeed ∧
    (((VoxelTerrain.init pixel1 pixel1 : VoxelTerrain ℝ).forward
        ⟨Real.sin, Real.cos, Real.tan, Real.exp, Real.sqrt,
          fun y x => Complex.arg ⟨x, y⟩, Real.pi⟩).length
        ⟨Real.sin, Real.cos, Real.tan, Real.exp, Real.sqrt,
          fun y x => Complex.arg ⟨x, y⟩, Real.pi⟩ = 1 ∧
      ((VoxelTerrain.init pixel1 pixel1 : VoxelTerrain ℝ).onUpdate
        ⟨Real.sin, Real.cos, Real.tan, Real.exp, Real.sqrt,
          fun y x => Complex.arg ⟨x, y⟩, Real.pi⟩ leftHeld (1 / 60)).camPos
        = (VoxelTerrain.init pixel1 pixel1 : VoxelTerrain ℝ).camPos.add
          ((((VoxelTerrain.init pixel1 pixel1 : VoxelTerrain ℝ).forward
            ⟨Real.sin, Real.cos, Real.tan, Real.exp, Real.sqrt,
              fun y x => Complex.arg ⟨x, y⟩, Real.pi⟩).scale (1 / 60)).scale
            (VoxelTerrain.init pixel1 pixel1 : VoxelTerrain ℝ).moveSpeed) ∧
      (((VoxelTerrain.init pixel1 pixel1 : VoxelTerrain ℝ).onUpdate
        ⟨Real.sin, Real.cos, Real.tan, Real.exp, Real.sqrt,
          fun y x => Complex.arg ⟨x, y⟩, Real.pi⟩ leftHeld (1 / 60)).camPos.sub
          (VoxelTerrain.init pixel1 pixel1 : VoxelTerrain ℝ).camPos).length
        ⟨Real.sin, Real.cos, Real.tan, Real.exp, Real.sqrt,
          fun y x => Complex.arg ⟨x, y⟩, Real.pi⟩
        = 1 / 60 * (VoxelTerrain.init pixel1 pixel1 : VoxelTerrain ℝ).moveSpeed) :=
  ⟨realMath_exact, by norm_num, by norm_num [VoxelTerrain.init],
    VoxelTerrain.constant_speed_advance _ realMath_exact
      (VoxelTerrain.init pixel1 pixel1 : VoxelTerrain ℝ) leftHeld (1 / 60) (by norm_num)
      (by norm_num [VoxelTerrain.init])⟩

/-- C16: over real arithmetic, for every angle `t` the product
`Mat3::rotationZ(t) * Mat3::rotationZ(-t)`, computed with `Mat3::operator*`,
equals the identity matrix of the default constructor in all nine entries. -/
theorem Mat3.rotationZ_mul_rotationZ_neg {α : Type} [LinearOrderedField α]
    (m : MathFns α) (hm : m.Exact) (t : α) :
    (Mat3.rotationZ m t).mul (Mat3.rotationZ m (-t)) = Mat3.identity := by
  have h := hm.sin_sq_add_cos_sq t
  simp only [Mat3.mul, Mat3.rotationZ, Mat3.identity, hm.sin_neg, hm.cos_neg, Mat3.mk.injEq]
  refine ⟨?_, ?_, ?_, ?_, ?_, ?_, ?_, ?_, ?_⟩
  · linear_combination h
  · ring
  · ring
  · ring
  · linear_combination h
  · ring
  · ring
  · ring
  · ring

/-- C16 witness: the real `<cmath>` functions and the angle 1. -/
theorem Mat3.rotationZ_mul_rotationZ_neg_witness :
    MathFns.Exact (⟨Real.sin, Real.cos, Real.tan, Real.exp, Real.sqrt,
      fun y x => Complex.arg ⟨x, y⟩, Real.pi⟩ : MathFns ℝ) ∧
    (Mat3.rotationZ (⟨Real.sin, Real.cos, Real.tan, Real.exp, Real.sqrt,
        fun y x => Complex.arg ⟨x, y⟩, Real.pi⟩ : MathFns ℝ) 1).mul
      (Mat3.rotationZ (⟨Real.sin, Real.cos, Real.tan, Real.exp, Real.sqrt,
        fun y x => Complex.arg ⟨x, y⟩, Real.pi⟩ : MathFns ℝ) (-1)) = Mat3.identity :=
  ⟨realMath_exact, Mat3.rotationZ_mul_rotationZ_neg _ realMath_exact 1⟩

/-- C17: over real arithmetic, for every vector `v` with at least one
non-zero component, the length by which `normalized()` divides is non-zero
and `v.normalized().length()` equals 1. -/
theorem Vec3.normalized_length {α : Type} [LinearOrderedField α]
    (m : MathFns α) (hm : m.Exact) (v : Vec3 α) (hv : v.x ≠ 0 ∨ v.y ≠ 0 ∨ v.z ≠ 0) :
    v.length m ≠ 0 ∧ (v.normalized m).length m = 1 := by
  have hpos := v.dot_self_pos hv
  have hL := hm.mul_self_sqrt (v.dot v) (le_of_lt hpos)
  have hne : m.sqrtf (v.dot v) ≠ 0 := by
    intro h0
    rw [h0, mul_zero] at hL
    exact absurd hL (ne_of_lt hpos)
  refine ⟨hne, ?_⟩
  have hdot : (v.normalized m).dot (v.normalized m) = 1 := by
    simp only [Vec3.normalized, Vec3.length, Vec3.div, Vec3.dot] at hL hne ⊢
    field_simp
    linear_combination -hL
  unfold Vec3.length
  rw [hdot]
  have := hm.sqrt_mul_self 1 zero_le_one
  simpa using this

/-- C17 witness: the real `<cmath>` functions and the vector `(3, 4, 0)`. -/
theorem Vec3.normalized_length_witness :
    MathFns.Exact (⟨Real.sin, Real.cos, Real.tan, Real.exp, Real.sqrt,
      fun y x => Complex.arg ⟨x, y⟩, Real.pi⟩ : MathFns ℝ) ∧
    ((⟨3, 4, 0⟩ : Vec3 ℝ).x ≠ 0 ∨ (⟨3, 4, 0⟩ : Vec3 ℝ).y ≠ 0 ∨ (⟨3, 4, 0⟩ : Vec3 ℝ).z ≠ 0) ∧
    ((⟨3, 4, 0⟩ : Vec3 ℝ).length ⟨Real.sin, Real.cos, Real.tan, Real.exp, Real.sqrt,
        fun y x => Complex.arg ⟨x, y⟩, Real.pi⟩ ≠ 0 ∧
      ((⟨3, 4, 0⟩ : Vec3 ℝ).normalized ⟨Real.sin, Real.cos, Real.tan, Real.exp, Real.sqrt,
        fun y x => Complex.arg ⟨x, y⟩, Real.pi⟩).length
        ⟨Real.sin, Real.cos, Real.tan, Real.exp, Real.sqrt,
          fun y x => Complex.arg ⟨x, y⟩, Real.pi⟩ = 1) :=
  ⟨realMath_exact, Or.inl (by norm_num),
    Vec3.normalized_length _ realMath_exact ⟨3, 4, 0⟩ (Or.inl (by norm_num))⟩

/-! ## Claims on sampling and on `rotateY` -/

/-- The four texels of `opaque2` that `sample(1/4, 0)` reads. -/
theorem opaque2_get :
    (opaque2.get 0 0 : Option (Color ℚ)) = some ⟨0, 0, 0, 1⟩ ∧
      (opaque2.get 1 0 : Option (Color ℚ)) = some ⟨1, 1, 1, 1⟩ ∧
      (opaque2.get 0 1 : Option (Color ℚ)) = some ⟨0, 0, 0, 1⟩ ∧
      (opaque2.get 1 1 : Option (Color ℚ)) = some ⟨1, 1, 1, 1⟩ := by
  have hw : 0 < opaque2.m_width := by decide
  have hh : 0 < opaque2.m_height := by decide
  have u00 : opaque2.uvi 0 0 = 0 := by decide
  have u10 : opaque2.uvi 1 0 = 4 := by decide
  have u01 : opaque2.uvi 0 1 = 0 := by decide
  have u11 : opaque2.uvi 1 1 = 4 := by decide
  refine ⟨?_, ?_, ?_, ?_⟩
  · rw [opaque2.get_of_bytes 0 0 0 0 0 255 hw hh (by rw [u00]; rfl) (by rw [u00]; rfl)
      (by rw [u00]; rfl) (by rw [u00]; rfl)]
    norm_num
  · rw [opaque2.get_of_bytes 1 0 255 255 255 255 hw hh (by rw [u10]; rfl) (by rw [u10]; rfl)
      (by rw [u10]; rfl) (by rw [u10]; rfl)]
    norm_num
  · rw [opaque2.get_of_bytes 0 1 0 0 0 255 hw hh (by rw [u01]; rfl) (by rw [u01]; rfl)
      (by rw [u01]; rfl) (by rw [u01]; rfl)]
    norm_num
  · rw [opaque2.get_of_bytes 1 1 255 255 255 255 hw hh (by rw [u11]; rfl) (by rw [u11]; rfl)
      (by rw [u11]; rfl) (by rw [u11]; rfl)]
    norm_num

/-- C15 (evaluation at the failing input): on the fully opaque 2x1 texture
`opaque2`, `sample(1/4, 0)` has `x = 0`, `y = 0`, `ur = 1/2`, `vr = 0` and reads
four texels of alpha 1, whose bilinear blend has alpha 1; the code returns
`(1/2, 1/2, 1/2, 1/2)`: the colour channels are the bilinear blend, the alpha
is only `(1-ur)(1-vr) * get(x,y).a`, since `operator+` keeps the alpha of its
left operand. -/
theorem Texture.sample_alpha_not_bilinear :
    (opaque2.sample (1 / 4 : ℚ) 0) = some ⟨1 / 2, 1 / 2, 1 / 2, 1 / 2⟩ ∧
      (opaque2.get 0 0 : Option (Color ℚ)) = some ⟨0, 0, 0, 1⟩ ∧
      (opaque2.get (0 + 1) 0 : Option (Color ℚ)) = some ⟨1, 1, 1, 1⟩ ∧
      (opaque2.get 0 (0 + 1) : Option (Color ℚ)) = some ⟨0, 0, 0, 1⟩ ∧
      (opaque2.get (0 + 1) (0 + 1) : Option (Color ℚ)) = some ⟨1, 1, 1, 1⟩ ∧
      (1 - 1 / 2) * (1 - 0) * 1 + 1 / 2 * (1 - 0) * 1 + (1 - 1 / 2) * 0 * 1 + 1 / 2 * 0 * 1
        = (1 : ℚ) := by
  obtain ⟨g00, g10, g01, g11⟩ := opaque2_get
  refine ⟨?_, g00, g10, g01, g11, by norm_num⟩
  have hw : ((opaque2.m_width : Nat) : ℚ) = 2 := by norm_num [opaque2]
  have hh : ((opaque2.m_height : Nat) : ℚ) = 1 := by norm_num [opaque2]
  have fx : ⌊(1 / 4 : ℚ) * 2⌋ = 0 := by
    rw [Int.floor_eq_iff]; constructor <;> norm_num
  have fy : ⌊(0 : ℚ) * 1⌋ = 0 := by simp
  have i0 : toI32 (toU32 0) = 0 := by decide
  have i1 : toI32 (u32 (toU32 0 + 1)) = 1 := by decide
  have n0 : ((toU32 0 : Nat) : ℚ) = 0 := by
    have : toU32 0 = 0 := by decide
    rw [this]; norm_num
  unfold Texture.sample
  simp only [hw, hh, fx, fy, i0, i1, n0, g00, g10, g01, g11, Option.bind_eq_bind,
    Option.some_bind, Color.scale, Color.add]
  norm_num

/-- C19 (evaluation at the failing input): with `sinf(0) = 0` and `cosf(0) = 1`,
`Vec3(1,0,0).rotateY(0)` is `(0, 0, 0)` while `Mat3::rotationY(0) * (1,0,0)` is
`(1, 0, 0)`: `rotateY` builds `rx` and `rz` from `y` where the rotation needs
`x`. The siblings `rotateX` and `rotateZ` agree with their matrices for every
vector and angle. -/
theorem Vec3.rotateY_not_rotation :
    Vec3.rotateY yawZeroMath ⟨1, 0, 0⟩ 0 = ⟨0, 0, 0⟩ ∧
      (Mat3.rotationY yawZeroMath 0).mulVec ⟨1, 0, 0⟩ = ⟨1, 0, 0⟩ ∧
      (∀ (m : MathFns ℚ) (v : Vec3 ℚ) (t : ℚ),
        v.rotateX m t = (Mat3.rotationX m t).mulVec v ∧
        v.rotateZ m t = (Mat3.rotationZ m t).mulVec v) := by
  refine ⟨?_, ?_, ?_⟩
  · simp [Vec3.rotateY, yawZeroMath]
  · simp [Mat3.rotationY, Mat3.mulVec, yawZeroMath]
  · intro m v t
    constructor
    · simp only [Vec3.rotateX, Mat3.rotationX, Mat3.mulVec, Vec3.mk.injEq]
      refine ⟨?_, ?_, ?_⟩ <;> ring
    · simp only [Vec3.rotateZ, Mat3.rotationZ, Mat3.mulVec, Vec3.mk.injEq]
      refine ⟨?_, ?_, ?_⟩ <;> ring

/-! ## The frame of `set` -/

section SetFrame

variable {α : Type} [LinearOrderedField α]

/-- Two in-range pixels that differ have different pixel indices. -/
theorem pixel_index_ne (w a b a' b' : Nat) (ha : a < w) (ha' : a' < w)
    (hne : a ≠ a' ∨ b ≠ b') : a + b * w ≠ a' + b' * w := by
  intro h
  have hw : 0 < w := by omega
  have hm : (a + b * w) % w = (a' + b' * w) % w := by rw [h]
  have hd : (a + b * w) / w = (a' + b' * w) / w := by rw [h]
  rw [Nat.add_mul_mod_self_right, Nat.add_mul_mod_self_right, Nat.mod_eq_of_lt ha,
    Nat.mod_eq_of_lt ha'] at hm
  rw [Nat.add_mul_div_right _ _ hw, Nat.add_mul_div_right _ _ hw, Nat.div_eq_of_lt ha,
    Nat.div_eq_of_lt ha'] at hd
  omega

/-- An in-range coordinate is its own wrapped value. -/
theorem toU32_mod_in_range (x : Int) (w : Nat) (h0 : 0 ≤ x) (h1 : x < (w : Int))
    (hw : w < 4294967296) : toU32 x % w = x.toNat := by
  have : toU32 x = x.toNat := by unfold toU32; omega
  rw [this]
  exact Nat.mod_eq_of_lt (by omega)

/-- After `set(x, y, c)` a read at another in-range pixel returns what it returned before. -/
theorem Texture.set_get_other [FloorRing α] (t : Texture) (x y x' y' : Int) (c : Color α)
    (hw : 0 < t.m_width) (hh : 0 < t.m_height) (hwf : t.WF)
    (hx0 : 0 ≤ x) (hx1 : x < (t.m_width : Int)) (hy0 : 0 ≤ y) (hy1 : y < (t.m_height : Int))
    (hx0' : 0 ≤ x') (hx1' : x' < (t.m_width : Int)) (hy0' : 0 ≤ y')
    (hy1' : y' < (t.m_height : Int)) (hne : (x', y') ≠ (x, y)) :
    ∃ t' : Texture, t.set x y c = some t' ∧
      (t'.get x' y' : Option (Color α)) = t.get x' y' ∧
      (∃ c' : Color α, t.get x' y' = some c') ∧
      t'.width = t.width ∧ t'.height = t.height := by
  obtain ⟨e, hlt⟩ := t.uvi_eq x y hw hh hwf.2
  obtain ⟨e', hlt'⟩ := t.uvi_eq x' y' hw hh hwf.2
  have h32 := hwf.2
  have hl := hwf.1
  have hWH : t.m_width * 1 ≤ t.m_width * t.m_height := Nat.mul_le_mul_left _ hh
  have hHW : t.m_height * 1 ≤ t.m_height * t.m_width := Nat.mul_le_mul_left _ hw
  have hcomm : t.m_height * t.m_width = t.m_width * t.m_height := Nat.mul_comm _ _
  have ax := toU32_mod_in_range x t.m_width hx0 hx1 (by omega)
  have ay := toU32_mod_in_range y t.m_height hy0 hy1 (by omega)
  have ax' := toU32_mod_in_range x' t.m_width hx0' hx1' (by omega)
  have ay' := toU32_mod_in_range y' t.m_height hy0' hy1' (by omega)
  have hpix : x.toNat + y.toNat * t.m_width ≠ x'.toNat + y'.toNat * t.m_width := by
    apply pixel_index_ne t.m_width _ _ _ _ (by omega) (by omega)
    by_contra hcon
    push_neg at hcon
    apply hne
    have h1 : x' = x := by omega
    have h2 : y' = y := by omega
    rw [h1, h2]
  rw [ax, ay] at e
  rw [ax', ay'] at e'
  obtain ⟨r, hr⟩ := t.bytes_present x' y' hw hh hwf 0 (by omega)
  obtain ⟨g, hg⟩ := t.bytes_present x' y' hw hh hwf 1 (by omega)
  obtain ⟨b, hb⟩ := t.bytes_present x' y' hw hh hwf 2 (by omega)
  obtain ⟨a, ha⟩ := t.bytes_present x' y' hw hh hwf 3 (by omega)
  have hbefore := t.get_of_bytes (α := α) x' y' r g b a hw hh hr hg hb ha
  refine ⟨_, t.set_eq x y c hw hh hwf, ?_, ⟨_, hbefore⟩, rfl, rfl⟩
  rw [hbefore]
  refine Texture.get_of_bytes ⟨t.m_width, t.m_height, _⟩ x' y' r g b a hw hh ?_ ?_ ?_ ?_
  · show (List.set _ _ _)[t.uvi x' y']? = _
    rw [List.getElem?_set_ne (by omega), List.getElem?_set_ne (by omega),
      List.getElem?_set_ne (by omega), List.getElem?_set_ne (by omega)]
    exact hr
  · show (List.set _ _ _)[t.uvi x' y' + 1]? = _
    rw [List.getElem?_set_ne (by omega), List.getElem?_set_ne (by omega),
      List.getElem?_set_ne (by omega), List.getElem?_set_ne (by omega)]
    exact hg
  · show (List.set _ _ _)[t.uvi x' y' + 2]? = _
    rw [List.getElem?_set_ne (by omega), List.getElem?_set_ne (by omega),
      List.getElem?_set_ne (by omega), List.getElem?_set_ne (by omega)]
    exact hb
  · show (List.set _ _ _)[t.uvi x' y' + 3]? = _
    rw [List.getElem?_set_ne (by omega), List.getElem?_set_ne (by omega),
      List.getElem?_set_ne (by omega), List.getElem?_set_ne (by omega)]
    exact ha

end SetFrame

/-- C20: on a texture that satisfies the invariant of the data model, for
every colour `c`: if width and height are positive and `(x, y)`, `(x', y')`
are two different in-range pixels, `set(x, y, c)` succeeds, `get(x', y')`
returns the same colour after it as before, and `width()`, `height()` are
unchanged; on a zero-sized texture `set` returns the texture as it was. -/
theorem Texture.set_changes_one_pixel {α : Type} [LinearOrderedField α] [FloorRing α]
    (t : Texture) (x y x' y' : Int) (c : Color α)
    (hinv : 0 < t.m_width → 0 < t.m_height → t.WF) :
    (0 < t.m_width → 0 < t.m_height →
      0 ≤ x → x < (t.m_width : Int) → 0 ≤ y → y < (t.m_height : Int) →
      0 ≤ x' → x' < (t.m_width : Int) → 0 ≤ y' → y' < (t.m_height : Int) →
      (x', y') ≠ (x, y) →
      ∃ t' : Texture, t.set x y c = some t' ∧
        (t'.get x' y' : Option (Color α)) = t.get x' y' ∧
        (∃ c' : Color α, t.get x' y' = some c') ∧
        t'.width = t.width ∧ t'.height = t.height) ∧
    ((t.m_width = 0 ∨ t.m_height = 0) → t.set x y c = some t) := by
  constructor
  · intro hw hh hx0 hx1 hy0 hy1 hx0' hx1' hy0' hy1' hne
    exact t.set_get_other x y x' y' c hw hh (hinv hw hh) hx0 hx1 hy0 hy1 hx0' hx1' hy0' hy1' hne
  · intro hz
    unfold Texture.set
    rw [if_pos hz]

/-- C20 witness: the 3x1 texture `stripe3`, written at `(0, 0)` and read at `(2, 0)`. -/
theorem Texture.set_changes_one_pixel_witness :
    (0 < stripe3.m_width → 0 < stripe3.m_height → stripe3.WF) ∧
    (∃ t' : Texture, stripe3.set 0 0 almostRed = some t' ∧
      (t'.get 2 0 : Option (Color ℚ)) = stripe3.get 2 0 ∧
      (∃ c' : Color ℚ, stripe3.get 2 0 = some c') ∧
      t'.width = stripe3.width ∧ t'.height = stripe3.height) ∧
    ((stripe3.m_width = 0 ∨ stripe3.m_height = 0) → stripe3.set 0 0 almostRed = some stripe3) :=
  ⟨fun _ _ => by decide,
    (Texture.set_changes_one_pixel stripe3 0 0 2 0 almostRed (fun _ _ => by decide)).1
      (by decide) (by decide) (by decide) (by decide) (by decide) (by decide) (by decide)
      (by decide) (by decide) (by decide) (by decide),
    (Texture.set_changes_one_pixel stripe3 0 0 2 0 almostRed (fun _ _ => by decide)).2⟩

/-! ## Spans -/

section SpanFacts

variable {α : Type} [LinearOrderedField α]

/-- Drawing one more span below the current end extends the chain. -/
theorem SpanChain.append (l : List (α × α)) :
    ∀ (hi mid h : α), SpanChain hi l mid → h < mid → SpanChain hi (l ++ [(h, mid)]) h := by
  induction l with
  | nil =>
    intro hi mid h hc hlt
    have hmid : mid = hi := hc
    subst hmid
    exact ⟨rfl, hlt, rfl⟩
  | cons s rest ih =>
    intro hi mid h hc hlt
    exact ⟨hc.1, hc.2.1, ih s.1 mid h hc.2.2 hlt⟩

/-- A chain ends at or below where it starts. -/
theorem SpanChain.le (l : List (α × α)) : ∀ (hi lo : α), SpanChain hi l lo → lo ≤ hi := by
  induction l with
  | nil => intro hi lo hc; exact le_of_eq hc
  | cons s rest ih =>
    intro hi lo hc
    have h1 := ih s.1 lo hc.2.2
    have h2 := hc.2.1
    have h3 := hc.1
    linarith

/-- Every span of a chain is non-empty and lies below the start of the chain. -/
theorem SpanChain.mem (l : List (α × α)) :
    ∀ (hi lo : α), SpanChain hi l lo → ∀ s ∈ l, s.1 < s.2 ∧ s.2 ≤ hi := by
  induction l with
  | nil => intro hi lo _ s hs; simp at hs
  | cons s0 rest ih =>
    intro hi lo hc s hs
    rcases List.mem_cons.mp hs with rfl | hs
    · exact ⟨hc.2.1, le_of_eq hc.1⟩
    · obtain ⟨h1, h2⟩ := ih s0.1 lo hc.2.2 s hs
      have h3 := hc.2.1
      have h4 := hc.1
      exact ⟨h1, by linarith⟩

/-- In a chain every later span lies at or below the row of every earlier one. -/
theorem SpanChain.pairwise (l : List (α × α)) :
    ∀ (hi lo : α), SpanChain hi l lo → List.Pairwise (fun s t => t.2 ≤ s.1) l := by
  induction l with
  | nil => intro hi lo _; exact List.Pairwise.nil
  | cons s0 rest ih =>
    intro hi lo hc
    refine List.Pairwise.cons ?_ (ih s0.1 lo hc.2.2)
    intro t ht
    exact (SpanChain.mem rest s0.1 lo hc.2.2 t ht).2

/-- The closed spans of a non-empty chain cover exactly the interval `[lo, hi]`. -/
theorem SpanChain.union (l : List (α × α)) :
    ∀ (hi lo : α), SpanChain hi l lo → l ≠ [] →
      ∀ r : α, (∃ s ∈ l, s.1 ≤ r ∧ r ≤ s.2) ↔ (lo ≤ r ∧ r ≤ hi) := by
  induction l with
  | nil => intro hi lo _ hne; exact absurd rfl hne
  | cons s0 rest ih =>
    intro hi lo hc _ r
    have h2 := hc.1
    have hlt := hc.2.1
    have hle := SpanChain.le rest s0.1 lo hc.2.2
    cases rest with
    | nil =>
      have hlo : lo = s0.1 := hc.2.2
      subst hlo
      constructor
      · rintro ⟨s, hs, h1, h3⟩
        rw [List.mem_singleton] at hs
        subst hs
        exact ⟨h1, by linarith⟩
      · rintro ⟨h1, h3⟩
        exact ⟨s0, List.mem_singleton.mpr rfl, h1, by linarith⟩
    | cons s1 rest' =>
      have ih' := ih s0.1 lo hc.2.2 (List.cons_ne_nil _ _) r
      constructor
      · rintro ⟨s, hs, h1, h3⟩
        rcases List.mem_cons.mp hs with rfl | hs
        · exact ⟨by linarith, by linarith⟩
        · obtain ⟨h4, h5⟩ := ih'.mp ⟨s, hs, h1, h3⟩
          exact ⟨h4, by linarith⟩
      · rintro ⟨h1, h3⟩
        rcases le_total r s0.1 with hr | hr
        · obtain ⟨s, hs, h4, h5⟩ := ih'.mpr ⟨h1, hr⟩
          exact ⟨s, List.mem_cons_of_mem _ hs, h4, h5⟩
        · exact ⟨s0, List.mem_cons_self _ _, hr, by linarith⟩

end SpanFacts

/-- A `line` call for column `x` adds its span to column `x` only. -/
theorem spansOf_append_line {α : Type} (j x : Nat) (cmds : List (DrawCmd α)) (h top r g b : α) :
    spansOf j (cmds ++ [DrawCmd.line x h x top r g b])
      = if x = j then spansOf j cmds ++ [(h, top)] else spansOf j cmds := by
  unfold spansOf
  rw [List.filterMap_append]
  by_cases hxj : x = j
  · simp [DrawCmd.span, hxj]
  · simp [DrawCmd.span, hxj]

/-- The two `str` calls that end `onDraw` add no span. -/
theorem spansOf_append_str {α : Type} (j : Nat) (cmds : List (DrawCmd α)) (a b : α) :
    spansOf j (cmds ++ [DrawCmd.str 'X' a 10 10, DrawCmd.str 'Y' b 10 20]) = spansOf j cmds := by
  unfold spansOf
  rw [List.filterMap_append]
  simp [DrawCmd.span]

/-! ## Invariants of the slice loop -/

section LoopFacts

variable {α : Type} [LinearOrderedField α] [FloorRing α]

/-- What the column body keeps, the column loop keeps. -/
theorem VoxelTerrain.drawColumns_preserve (m : MathFns α) (g : VoxelTerrain α) (cw ch : Nat)
    (f : Frame α) (sl : Slice α) (P : DrawState α → Prop)
    (hP : ∀ (st st' : DrawState α) (x : Nat),
      g.drawColumn m cw ch f sl st x = some st' → P st → P st') (l : List Nat) :
    ∀ st st' : DrawState α, l.foldlM (g.drawColumn m cw ch f sl) st = some st' → P st → P st' := by
  induction l with
  | nil =>
    intro st st' h hst
    injection h with h
    subst h
    exact hst
  | cons x l ih =>
    intro st st' h hst
    rw [List.foldlM_cons] at h
    cases h1 : g.drawColumn m cw ch f sl st x with
    | none => rw [h1] at h; simp at h
    | some st1 =>
      rw [h1] at h
      exact ih st1 st' h (hP st st1 x h1 hst)

/-- What the column body keeps in every slice, the slice loop keeps. -/
theorem VoxelTerrain.sliceLoop_preserve (m : MathFns α) (g : VoxelTerrain α) (cw ch : Nat)
    (f : Frame α) (P : DrawState α → Prop)
    (hP : ∀ (sl : Slice α) (st st' : DrawState α) (x : Nat),
      g.drawColumn m cw ch f sl st x = some st' → P st → P st') (fuel : Nat) :
    ∀ (z dz : α) (st st' : DrawState α),
      g.sliceLoop m cw ch f fuel z dz st = some st' → P st → P st' := by
  induction fuel with
  | zero =>
    intro z dz st st' h _
    simp [VoxelTerrain.sliceLoop] at h
  | succ fuel ih =>
    intro z dz st st' h hst
    rw [VoxelTerrain.sliceLoop] at h
    split_ifs at h with hlt
    · simp only [Option.bind_eq_bind] at h
      cases h1 : g.drawSlice m cw ch f z dz st with
      | none => rw [h1] at h; simp at h
      | some st1 =>
        rw [h1] at h
        simp only [Option.some_bind] at h
        have hst1 : P st1 :=
          g.drawColumns_preserve m cw ch f (g.slice f z dz) P (hP (g.slice f z dz))
            (List.range cw) st st1 h1 hst
        exact ih _ _ st1 st' h hst1
    · injection h with h
      subst h
      exact hst

/-- The result of `onDraw` is the result of its slice loop followed by the two `str` calls. -/
theorem VoxelTerrain.onDraw_eq (m : MathFns α) (g : VoxelTerrain α) (cw ch : Nat)
    (st : DrawState α) (h : g.onDraw m cw ch = some st) :
    ∃ st0 : DrawState α,
      g.sliceLoop m cw ch (g.frame m ch) (Nat.ceil g.distance + 1) 1 1 (g.drawInit cw ch)
        = some st0 ∧
      st = ⟨st0.ybuffer, st0.cmds ++
        [DrawCmd.str 'X' g.camPos.x 10 10, DrawCmd.str 'Y' g.camPos.y 10 20]⟩ := by
  unfold VoxelTerrain.onDraw at h
  simp only [Option.bind_eq_bind] at h
  cases h0 : g.sliceLoop m cw ch (g.frame m ch) (Nat.ceil g.distance + 1) 1 1
      (g.drawInit cw ch) with
  | none => rw [h0] at h; simp at h
  | some st0 =>
    rw [h0] at h
    simp only [Option.some_bind] at h
    injection h with h
    exact ⟨st0, rfl, h.symm⟩

/-- The column body keeps the spans of every column chained end to end. -/
theorem VoxelTerrain.drawColumn_tiled (m : MathFns α) (g : VoxelTerrain α) (cw ch : Nat)
    (f : Frame α) (sl : Slice α) (st st' : DrawState α) (x : Nat)
    (hst : g.drawColumn m cw ch f sl st x = some st') (ht : Tiled ch st) : Tiled ch st' := by
  rcases g.drawColumn_cases m cw ch f sl st st' x hst with
    rfl | ⟨h, top, r, gc, b, _, htop, _, _, hlt, rfl⟩
  · exact ht
  · intro j v hv
    show SpanChain (ch : α) (spansOf j (st.cmds ++ [DrawCmd.line x h x top r gc b])) v
    have hv' : (st.ybuffer.set x h)[j]? = some v := hv
    rw [spansOf_append_line]
    by_cases hxj : x = j
    · subst hxj
      rw [if_pos rfl]
      have hx : x < st.ybuffer.length := by
        by_contra hcon
        rw [List.getElem?_eq_none (not_lt.mp hcon)] at htop
        exact absurd htop (by simp)
      rw [List.getElem?_set_self hx] at hv'
      injection hv' with hv'
      subst hv'
      exact SpanChain.append _ _ top h (ht x top htop) hlt
    · rw [if_neg hxj]
      rw [List.getElem?_set_ne hxj] at hv'
      exact ht j v hv'

/-- With a well-formed colour texture, the column body draws exactly when the
in-range row `h` is below the current occlusion value `top`: it then calls
`line(x, h, x, top, ..)` and stores `h`; otherwise it leaves the state as it is. -/
theorem VoxelTerrain.drawColumn_draws (m : MathFns α) (g : VoxelTerrain α) (cw ch : Nat)
    (f : Frame α) (sl : Slice α) (st : DrawState α) (x : Nat) (h top : α)
    (hC : g.color.WF) (hrow : g.screenRow cw f sl x = some h)
    (htop : st.ybuffer[x]? = some top) :
    ((0 ≤ h ∧ h ≤ (ch : α)) ∧ h < top →
      ∃ r gc b : α, g.drawColumn m cw ch f sl st x
        = some ⟨st.ybuffer.set x h, st.cmds ++ [DrawCmd.line x h x top r gc b]⟩) ∧
    (¬ ((0 ≤ h ∧ h ≤ (ch : α)) ∧ h < top) → g.drawColumn m cw ch f sl st x = some st) := by
  obtain ⟨texel, htex⟩ := g.color.get_total (α := α) hC
    (truncF ((sl.pleft.lerp sl.pright ((x : α) / (cw : α))).x))
    (truncF ((sl.pleft.lerp sl.pright ((x : α) / (cw : α))).y))
  constructor
  · rintro ⟨⟨h0, h1⟩, hlt⟩
    have hin : ¬ (h < 0 ∨ h > (ch : α)) := by
      push_neg
      exact ⟨h0, h1⟩
    have key : g.drawColumn m cw ch f sl st x
        = some ⟨st.ybuffer.set x h, st.cmds ++ [DrawCmd.line x h x top
          (g.bg.lerp texel (stdClamp (1 / m.exp (sl.lz * 1 * (sl.lz * 1))) 0 1)).r
          (g.bg.lerp texel (stdClamp (1 / m.exp (sl.lz * 1 * (sl.lz * 1))) 0 1)).g
          (g.bg.lerp texel (stdClamp (1 / m.exp (sl.lz * 1 * (sl.lz * 1))) 0 1)).b]⟩ := by
      unfold VoxelTerrain.drawColumn
      simp only [Option.bind_eq_bind, hrow, htex, htop, Option.some_bind]
      rw [if_neg hin, if_pos hlt]
    exact ⟨_, _, _, key⟩
  · intro hnot
    unfold VoxelTerrain.drawColumn
    simp only [Option.bind_eq_bind, hrow, htex, htop, Option.some_bind]
    by_cases hout : h < 0 ∨ h > (ch : α)
    · rw [if_pos hout]
    · rw [if_neg hout]
      have hge : ¬ h < top := by
        intro hlt
        push_neg at hout
        exact hnot ⟨hout, hlt⟩
      rw [if_neg hge]

end LoopFacts

/-- The state before the slice loop has no span and every column at the viewport height. -/
theorem VoxelTerrain.drawInit_tiled {α : Type} [LinearOrderedField α] (g : VoxelTerrain α) (cw ch : Nat) :
    Tiled ch (g.drawInit cw ch) := by
  intro x v hv
  unfold VoxelTerrain.drawInit at hv ⊢
  have hv' : (List.replicate cw (ch : α))[x]? = some v := hv
  rw [List.getElem?_replicate] at hv'
  split_ifs at hv' with hx
  injection hv' with hv'
  subst hv'
  show SpanChain (ch : α) (spansOf x [DrawCmd.clear g.bg.r g.bg.g g.bg.b]) (ch : α)
  simp [spansOf, DrawCmd.span, SpanChain]

/-! ## The frame as the column law applied slice by slice -/

section FrameFacts

variable {α : Type} [LinearOrderedField α] [FloorRing α]

/-- A column body that returns has computed a row. -/
theorem VoxelTerrain.drawColumn_row (m : MathFns α) (g : VoxelTerrain α) (cw ch : Nat)
    (f : Frame α) (sl : Slice α) (st st' : DrawState α) (x : Nat)
    (hst : g.drawColumn m cw ch f sl st x = some st') :
    ∃ h : α, g.screenRow cw f sl x = some h := by
  cases hrow : g.screenRow cw f sl x with
  | none =>
    unfold VoxelTerrain.drawColumn at hst
    simp [hrow] at hst
  | some h => exact ⟨h, rfl⟩

/-- The column body, run for column `x`, applies the column law to that column. -/
theorem VoxelTerrain.drawColumn_same (m : MathFns α) (g : VoxelTerrain α) (cw ch : Nat)
    (f : Frame α) (sl : Slice α) (st st' : DrawState α) (x : Nat) (v : α)
    (hC : g.color.WF) (hst : g.drawColumn m cw ch f sl st x = some st')
    (hv : st.ybuffer[x]? = some v) :
    ∃ h : α, g.screenRow cw f sl x = some h ∧
      st'.ybuffer[x]? = some (columnLaw ch (v, spansOf x st.cmds) h).1 ∧
      spansOf x st'.cmds = (columnLaw ch (v, spansOf x st.cmds) h).2 := by
  obtain ⟨h, hrow⟩ := g.drawColumn_row m cw ch f sl st st' x hst
  refine ⟨h, hrow, ?_⟩
  obtain ⟨hdraw, hkeep⟩ := g.drawColumn_draws m cw ch f sl st x h v hC hrow hv
  have hx : x < st.ybuffer.length := by
    by_contra hcon
    rw [List.getElem?_eq_none (not_lt.mp hcon)] at hv
    exact absurd hv (by simp)
  by_cases hc : (0 ≤ h ∧ h ≤ (ch : α)) ∧ h < v
  · obtain ⟨r, gc, b, hres⟩ := hdraw hc
    rw [hres] at hst
    injection hst with hst
    subst hst
    have hlaw : columnLaw ch (v, spansOf x st.cmds) h = (h, spansOf x st.cmds ++ [(h, v)]) := by
      unfold columnLaw
      rw [if_pos hc]
    rw [hlaw]
    constructor
    · show (st.ybuffer.set x h)[x]? = some h
      exact List.getElem?_set_self hx
    · show spansOf x (st.cmds ++ [DrawCmd.line x h x v r gc b]) = _
      rw [spansOf_append_line, if_pos rfl]
  · rw [hkeep hc] at hst
    injection hst with hst
    subst hst
    have hlaw : columnLaw ch (v, spansOf x st.cmds) h = (v, spansOf x st.cmds) := by
      unfold columnLaw
      rw [if_neg hc]
    rw [hlaw]
    exact ⟨hv, rfl⟩

/-- The column body, run for another column, leaves column `x` as it is. -/
theorem VoxelTerrain.drawColumn_other (m : MathFns α) (g : VoxelTerrain α) (cw ch : Nat)
    (f : Frame α) (sl : Slice α) (st st' : DrawState α) (x' x : Nat) (hne : x' ≠ x)
    (hst : g.drawColumn m cw ch f sl st x' = some st') :
    st'.ybuffer[x]? = st.ybuffer[x]? ∧ spansOf x st'.cmds = spansOf x st.cmds := by
  rcases g.drawColumn_cases m cw ch f sl st st' x' hst with
    rfl | ⟨h, top, r, gc, b, _, _, _, _, _, rfl⟩
  · exact ⟨rfl, rfl⟩
  · constructor
    · show (st.ybuffer.set x' h)[x]? = _
      exact List.getElem?_set_ne hne
    · show spansOf x (st.cmds ++ [DrawCmd.line x' h x' top r gc b]) = _
      rw [spansOf_append_line, if_neg hne]

/-- The column loop over a list of distinct columns applies the column law
once to each column of the list and leaves the others as they are. -/
theorem VoxelTerrain.drawColumns_law (m : MathFns α) (g : VoxelTerrain α) (cw ch : Nat)
    (f : Frame α) (sl : Slice α) (hC : g.color.WF) (x : Nat) (l : List Nat) :
    l.Nodup → ∀ (st st' : DrawState α) (v : α),
      l.foldlM (g.drawColumn m cw ch f sl) st = some st' → st.ybuffer[x]? = some v →
      (x ∈ l → ∃ h : α, g.screenRow cw f sl x = some h ∧
        st'.ybuffer[x]? = some (columnLaw ch (v, spansOf x st.cmds) h).1 ∧
        spansOf x st'.cmds = (columnLaw ch (v, spansOf x st.cmds) h).2) ∧
      (x ∉ l → st'.ybuffer[x]? = some v ∧ spansOf x st'.cmds = spansOf x st.cmds) := by
  induction l with
  | nil =>
    intro _ st st' v h hv
    injection h with h
    subst h
    exact ⟨fun hx => absurd hx (List.not_mem_nil x), fun _ => ⟨hv, rfl⟩⟩
  | cons x' l ih =>
    intro hnd st st' v h hv
    rw [List.foldlM_cons] at h
    cases h1 : g.drawColumn m cw ch f sl st x' with
    | none => rw [h1] at h; simp at h
    | some st1 =>
      rw [h1] at h
      have hnd' := (List.nodup_cons.mp hnd).2
      have hx'l := (List.nodup_cons.mp hnd).1
      by_cases hxx : x' = x
      · subst hxx
        obtain ⟨hh, hrow, hb, hs⟩ := g.drawColumn_same m cw ch f sl st st1 x' v hC h1 hv
        obtain ⟨_, hrest⟩ := ih hnd' st1 st' _ h hb
        obtain ⟨hb', hs'⟩ := hrest hx'l
        constructor
        · intro _
          exact ⟨hh, hrow, hb', by rw [hs', hs]⟩
        · intro hnot
          exact absurd (List.mem_cons_self _ _) hnot
      · obtain ⟨hb, hs⟩ := g.drawColumn_other m cw ch f sl st st1 x' x hxx h1
        rw [hv] at hb
        obtain ⟨hin, hout⟩ := ih hnd' st1 st' v h hb
        constructor
        · intro hmem
          have hmem' : x ∈ l := by
            rcases List.mem_cons.mp hmem with heq | hmem'
            · exact absurd heq.symm hxx
            · exact hmem'
          obtain ⟨hh, hrow, hb', hs'⟩ := hin hmem'
          rw [hs] at hb' hs'
          exact ⟨hh, hrow, hb', hs'⟩
        · intro hnot
          have hnot' : x ∉ l := fun hm => hnot (List.mem_cons_of_mem _ hm)
          obtain ⟨hb', hs'⟩ := hout hnot'
          exact ⟨hb', by rw [hs', hs]⟩

/-- One pass of the slice loop applies the column law once to every column. -/
theorem VoxelTerrain.drawSlice_law (m : MathFns α) (g : VoxelTerrain α) (cw ch : Nat)
    (f : Frame α) (z dz : α) (st st' : DrawState α) (x : Nat) (v : α) (hC : g.color.WF)
    (hx : x < cw) (hst : g.drawSlice m cw ch f z dz st = some st')
    (hv : st.ybuffer[x]? = some v) :
    ∃ h : α, g.screenRow cw f (g.slice f z dz) x = some h ∧
      st'.ybuffer[x]? = some (columnLaw ch (v, spansOf x st.cmds) h).1 ∧
      spansOf x st'.cmds = (columnLaw ch (v, spansOf x st.cmds) h).2 :=
  (g.drawColumns_law m cw ch f (g.slice f z dz) hC x (List.range cw) (List.nodup_range cw)
    st st' v hst hv).1 (List.mem_range.mpr hx)

/-- The slice loop folds the column law over the rows that column `x` has in
the slices of the loop, in the order of the passes. -/
theorem VoxelTerrain.sliceLoop_law (m : MathFns α) (g : VoxelTerrain α) (cw ch : Nat)
    (f : Frame α) (hC : g.color.WF) (x : Nat) (hx : x < cw) (fuel : Nat) :
    ∀ (z dz : α) (st st' : DrawState α) (v : α),
      g.sliceLoop m cw ch f fuel z dz st = some st' → st.ybuffer[x]? = some v →
      ∃ rows : List α,
        List.Forall₂ (fun zd h => g.screenRow cw f (g.slice f zd.1 zd.2) x = some h)
          (g.slices fuel z dz) rows ∧
        st'.ybuffer[x]? = some (rows.foldl (columnLaw ch) (v, spansOf x st.cmds)).1 ∧
        spansOf x st'.cmds = (rows.foldl (columnLaw ch) (v, spansOf x st.cmds)).2 := by
  induction fuel with
  | zero =>
    intro z dz st st' v h _
    simp [VoxelTerrain.sliceLoop] at h
  | succ fuel ih =>
    intro z dz st st' v h hv
    rw [VoxelTerrain.sliceLoop] at h
    rw [VoxelTerrain.slices]
    split_ifs at h ⊢ with hlt
    · simp only [Option.bind_eq_bind] at h
      cases h1 : g.drawSlice m cw ch f z dz st with
      | none => rw [h1] at h; simp at h
      | some st1 =>
        rw [h1] at h
        simp only [Option.some_bind] at h
        obtain ⟨h0, hrow, hb, hs⟩ := g.drawSlice_law m cw ch f z dz st st1 x v hC hx h1 hv
        obtain ⟨rows, hall, hb', hs'⟩ := ih _ _ st1 st' _ h hb
        refine ⟨h0 :: rows, List.Forall₂.cons hrow hall, ?_, ?_⟩
        · rw [List.foldl_cons, hb', hs]
        · rw [List.foldl_cons, hs', hs]
    · injection h with h
      subst h
      exact ⟨[], List.Forall₂.nil, hv, rfl⟩

end FrameFacts

section LevelFacts

variable {α : Type} [LinearOrderedField α] [FloorRing α]

/-- Over a heightmap whose red bytes all equal `p`, the row of every column in
every slice is `(camPos.z - p) * invz + horizon + roll * (2 * x / width - 1)`. -/
theorem VoxelTerrain.screenRow_red_const (g : VoxelTerrain α) (cw : Nat) (f : Frame α)
    (sl : Slice α) (x p : Nat) (hw : 0 < g.heightmap.m_width) (hh : 0 < g.heightmap.m_height)
    (hwf : g.heightmap.WF) (hred : g.heightmap.RedConst p) :
    g.screenRow cw f sl x
      = some ((g.camPos.z - (p : α)) * sl.invz + f.horizon
          + g.camRot.z * ((x : α) / (cw : α) * 2 - 1)) := by
  obtain ⟨c, hc, hcr⟩ := g.heightmap.get_red_const (α := α) p
    (truncF ((sl.pleft.lerp sl.pright ((x : α) / (cw : α))).x))
    (truncF ((sl.pleft.lerp sl.pright ((x : α) / (cw : α))).y)) hw hh hwf hred
  unfold VoxelTerrain.screenRow
  simp only [Option.bind_eq_bind, hc, Option.some_bind, hcr]
  congr 1
  have h255 : (p : α) / 255 * 255 = (p : α) := by field_simp
  rw [h255]

end LevelFacts

/-- Rows that are not below the occlusion value leave the column as it is. -/
theorem columnLaw_foldl_const {α : Type} [LinearOrderedField α] (ch : Nat) (v : α) (spans : List (α × α)) (rows : List α)
    (hrows : ∀ h ∈ rows, h = v) : rows.foldl (columnLaw ch) (v, spans) = (v, spans) := by
  induction rows with
  | nil => rfl
  | cons h rows ih =>
    have hh : h = v := hrows h (List.mem_cons_self _ _)
    have hstep : columnLaw ch (v, spans) h = (v, spans) := by
      unfold columnLaw
      rw [if_neg]
      rintro ⟨_, hlt⟩
      rw [hh] at hlt
      exact lt_irrefl _ hlt
    rw [List.foldl_cons, hstep]
    exact ih (fun h' hm => hrows h' (List.mem_cons_of_mem _ hm))

/-- When the loop has a first slice, so has its list of slices: `z = 1`, `dz = 1`. -/
theorem VoxelTerrain.slices_head {α : Type} [LinearOrderedField α] (g : VoxelTerrain α) (fuel : Nat) (hd : 1 < g.distance) :
    ∃ rest, g.slices (fuel + 1) 1 1 = (1, 1) :: rest := by
  rw [VoxelTerrain.slices, if_pos hd]
  exact ⟨_, rfl⟩

/-- Rows that all come out as the same value `c` form a list of `c`. -/
theorem rows_const {α β : Type} (F : β → Option α) (c : α) (hF : ∀ b, F b = some c)
    (l : List β) : ∀ rows : List α, List.Forall₂ (fun b h => F b = some h) l rows →
      ∀ h ∈ rows, h = c := by
  induction l with
  | nil =>
    intro rows hall h hm
    cases hall
    exact absurd hm (List.not_mem_nil h)
  | cons b l ih =>
    intro rows hall h hm
    cases hall with
    | cons hb hrest =>
      rcases List.mem_cons.mp hm with rfl | hm'
      · rw [hF b] at hb
        injection hb with hb
        exact hb.symm
      · exact ih _ hrest h hm'

/-- In the renderer over `flat120`, on a canvas four rows high, every column
has the row 2 in every slice: the terrain is level with the camera. -/
theorem levelGame_row (cw : Nat) (sl : Slice ℚ) (x : Nat) :
    levelGame.screenRow cw (levelGame.frame yawZeroMath 4) sl x = some 2 := by
  rw [levelGame.screenRow_red_const cw _ sl x 120 (by decide) (by decide) (by decide)
    (by decide)]
  simp only [levelGame, VoxelTerrain.init, VoxelTerrain.frame]
  norm_num

/-! ## Claim on the drawn spans -/

/-- C18: with well-formed textures, for every camera state and viewport.
(1) In the column body a line is drawn for column `x` exactly when the row `h`
is in `[0, viewportHeight]` and strictly below the column's occlusion value
`top`; the line runs from `h` to `top` and the value becomes `h`.
(2) `onDraw` returns, and for every column `x` its final occlusion value and
the spans it drew for `x` are exactly what this law gives when it is applied,
starting from the viewport height and no span, to the rows `h` that column `x`
has in the successive slices of the loop (the first slice being `z = 1` when
`1 < distance`). (3) Hence the spans of a column, oldest first, are non-empty,
each later one lies at or below the row of every earlier one (closed spans
share at most an endpoint), and their union is exactly the interval from the
final occlusion value to the viewport height; a column without a span keeps
the viewport height. -/
theorem VoxelTerrain.onDraw_spans_tile {α : Type} [LinearOrderedField α] [FloorRing α]
    (m : MathFns α) (g : VoxelTerrain α) (cw ch : Nat)
    (hH : g.heightmap.WF) (hC : g.color.WF) :
    (∀ (f : Frame α) (sl : Slice α) (st : DrawState α) (x : Nat) (h top : α),
      g.screenRow cw f sl x = some h → st.ybuffer[x]? = some top →
      (((0 ≤ h ∧ h ≤ (ch : α)) ∧ h < top →
        ∃ r gc b : α, g.drawColumn m cw ch f sl st x
          = some ⟨st.ybuffer.set x h, st.cmds ++ [DrawCmd.line x h x top r gc b]⟩) ∧
      (¬ ((0 ≤ h ∧ h ≤ (ch : α)) ∧ h < top) → g.drawColumn m cw ch f sl st x = some st))) ∧
    (1 < g.distance → ∃ rest, g.slices (Nat.ceil g.distance + 1) 1 1 = (1, 1) :: rest) ∧
    (∃ st, g.onDraw m cw ch = some st ∧
      ∀ x, x < cw → ∃ (rows : List α) (final : α),
        List.Forall₂
          (fun zd h => g.screenRow cw (g.frame m ch) (g.slice (g.frame m ch) zd.1 zd.2) x = some h)
          (g.slices (Nat.ceil g.distance + 1) 1 1) rows ∧
        st.ybuffer[x]? = some final ∧
        (final, spansOf x st.cmds) = rows.foldl (columnLaw ch) ((ch : α), []) ∧
        List.Pairwise (fun s t => t.2 ≤ s.1) (spansOf x st.cmds) ∧
        (∀ s ∈ spansOf x st.cmds, s.1 < s.2) ∧
        (spansOf x st.cmds = [] → final = (ch : α)) ∧
        (spansOf x st.cmds ≠ [] →
          ∀ r : α, (∃ s ∈ spansOf x st.cmds, s.1 ≤ r ∧ r ≤ s.2) ↔ (final ≤ r ∧ r ≤ (ch : α)))) := by
  refine ⟨?_, ?_, ?_⟩
  · intro f sl st x h top hrow htop
    exact g.drawColumn_draws m cw ch f sl st x h top hC hrow htop
  · intro hd
    exact g.slices_head _ hd
  · obtain ⟨st, hst, low⟩ := g.onDraw_lowered m cw ch hH hC
    obtain ⟨st0, h0, hres⟩ := g.onDraw_eq m cw ch st hst
    have htiled : Tiled ch st0 :=
      g.sliceLoop_preserve m cw ch (g.frame m ch) (Tiled ch)
        (fun sl s s' x hs ht => g.drawColumn_tiled m cw ch (g.frame m ch) sl s s' x hs ht)
        _ _ _ _ st0 h0 (g.drawInit_tiled cw ch)
    have hlen : st.ybuffer.length = cw := by
      rw [low.1]
      unfold VoxelTerrain.drawInit
      exact List.length_replicate _ _
    refine ⟨st, hst, ?_⟩
    intro x hx
    have hx' : x < st.ybuffer.length := by rw [hlen]; exact hx
    have hfin : st.ybuffer[x]? = some st.ybuffer[x] := List.getElem?_eq_getElem hx'
    have hspans : spansOf x st.cmds = spansOf x st0.cmds := by
      rw [hres]
      exact spansOf_append_str x st0.cmds _ _
    have hyb : st.ybuffer = st0.ybuffer := by rw [hres]
    have hbuf : st0.ybuffer[x]? = some st.ybuffer[x] := by
      rw [← hyb]
      exact hfin
    have hchain := htiled x _ hbuf
    have hinit : (g.drawInit cw ch).ybuffer[x]? = some (ch : α) := by
      unfold VoxelTerrain.drawInit
      show (List.replicate cw (ch : α))[x]? = _
      rw [List.getElem?_replicate, if_pos hx]
    have hinit_spans : spansOf x (g.drawInit cw ch).cmds = [] := by
      unfold VoxelTerrain.drawInit
      simp [spansOf, DrawCmd.span]
    obtain ⟨rows, hall, hb, hs⟩ := g.sliceLoop_law m cw ch (g.frame m ch) hC x hx _ _ _ _ st0
      (ch : α) h0 hinit
    rw [hinit_spans] at hb hs
    rw [hbuf] at hb
    injection hb with hb
    rw [hspans]
    refine ⟨rows, _, hall, hfin, ?_, SpanChain.pairwise _ _ _ hchain, ?_, ?_, ?_⟩
    · rw [Prod.ext_iff]
      exact ⟨hb, hs⟩
    · intro s hs'
      exact (SpanChain.mem _ _ _ hchain s hs').1
    · intro hnil
      rw [hnil] at hchain
      exact hchain
    · intro hne r
      exact SpanChain.union _ _ _ hchain hne r

/-- C18 witness: the renderer as constructed over the level heightmap
`flat120`, on a 2x4 canvas. Every row is 2, so the law draws in the first
slice only: `onDraw` returns with occlusion value 2 and the single span from
row 2 to row 4 in both columns. -/
theorem VoxelTerrain.onDraw_spans_tile_witness :
    levelGame.heightmap.WF ∧ levelGame.color.WF ∧
    (∃ st, levelGame.onDraw yawZeroMath 2 4 = some st ∧
      ∀ x, x < 2 → st.ybuffer[x]? = some 2 ∧ spansOf x st.cmds = [((2 : ℚ), (4 : ℚ))]) := by
  refine ⟨by decide, by decide, ?_⟩
  obtain ⟨_, hhead, st, hst, hcols⟩ :=
    VoxelTerrain.onDraw_spans_tile yawZeroMath levelGame 2 4 (by decide) (by decide)
  refine ⟨st, hst, ?_⟩
  intro x hx
  obtain ⟨rows, final, hall, hfin, hfold, _⟩ := hcols x hx
  have hd : (1 : ℚ) < levelGame.distance := by
    simp only [levelGame, VoxelTerrain.init]
    norm_num
  obtain ⟨rest, hsl⟩ := hhead hd
  have hrows := rows_const
    (fun zd : ℚ × ℚ => levelGame.screenRow 2 (levelGame.frame yawZeroMath 4)
      (levelGame.slice (levelGame.frame yawZeroMath 4) zd.1 zd.2) x) 2
    (fun zd => levelGame_row 2 _ x) _ rows hall
  rw [hsl] at hall
  cases hall with
  | cons h0 hrest =>
    rename_i h rows'
    have hh : h = 2 := hrows h (List.mem_cons_self _ _)
    subst hh
    have hstep : columnLaw 4 (((4 : Nat) : ℚ), []) 2 = (2, [((2 : ℚ), (4 : ℚ))]) := by
      unfold columnLaw
      norm_num
    rw [List.foldl_cons, hstep, columnLaw_foldl_const 4 2 _ rows'
      (fun h' hm => hrows h' (List.mem_cons_of_mem _ hm))] at hfold
    rw [Prod.ext_iff] at hfold
    have h1 : final = 2 := hfold.1
    have h2 : spansOf x st.cmds = [((2 : ℚ), (4 : ℚ))] := hfold.2
    rw [hfin, h1]
    exact ⟨rfl, h2⟩

/-! ## Binary32 rounding: what the model computes -/

/-- The search returns the least shift from `s` on that leaves fewer than 24 bits. -/
theorem shiftFrom_spec (N : Nat) : ∀ (fuel s : Nat), N / 2 ^ (s + fuel) < 16777216 →
    s ≤ shiftFrom fuel N s ∧ N / 2 ^ (shiftFrom fuel N s) < 16777216 ∧
      ∀ u, s ≤ u → u < shiftFrom fuel N s → 16777216 ≤ N / 2 ^ u := by
  intro fuel
  induction fuel with
  | zero =>
    intro s h
    refine ⟨le_refl _, h, ?_⟩
    intro u h1 h2
    exact absurd h2 (not_lt.mpr h1)
  | succ fuel ih =>
    intro s h
    rw [shiftFrom]
    split_ifs with hs
    · refine ⟨le_refl _, hs, ?_⟩
      intro u h1 h2
      exact absurd h2 (not_lt.mpr h1)
    · have h' : N / 2 ^ (s + 1 + fuel) < 16777216 := by
        have e : s + 1 + fuel = s + (fuel + 1) := by omega
        rw [e]; exact h
      obtain ⟨h1, h2, h3⟩ := ih (s + 1) h'
      refine ⟨by omega, h2, ?_⟩
      intro u hu1 hu2
      by_cases hus : u = s
      · subst hus; exact not_lt.mp hs
      · exact h3 u (by omega) hu2

/-- The rounding `rne24` returns a multiple `m * 2^s` of the quantum `2^s`
that the 24-bit significand allows, with `m ≤ 2^24`, at most half a quantum
away from `U / D`. -/
theorem rne24_spec (U D : Nat) (hD : 0 < D) (hU : U / D / 2 ^ 512 < 16777216) :
    ∃ m : Nat, rne24 U D = m * 2 ^ shiftFrom 512 (U / D) 0 ∧ m ≤ 16777216 ∧
      2 * (m * (D * 2 ^ shiftFrom 512 (U / D) 0)) ≤ 2 * U + D * 2 ^ shiftFrom 512 (U / D) 0 ∧
      2 * U ≤ 2 * (m * (D * 2 ^ shiftFrom 512 (U / D) 0)) + D * 2 ^ shiftFrom 512 (U / D) 0 := by
  have hspec := shiftFrom_spec (U / D) 512 0 (by rw [Nat.zero_add]; exact hU)
  have hQ : 0 < D * 2 ^ shiftFrom 512 (U / D) 0 := Nat.mul_pos hD (Nat.pow_pos (by norm_num))
  have hdm := Nat.div_add_mod U (D * 2 ^ shiftFrom 512 (U / D) 0)
  have hr := Nat.mod_lt U hQ
  have hm : U / (D * 2 ^ shiftFrom 512 (U / D) 0) < 16777216 := by
    rw [← Nat.div_div_eq_div_mul]
    exact hspec.2.1
  have hcomm : D * 2 ^ shiftFrom 512 (U / D) 0 * (U / (D * 2 ^ shiftFrom 512 (U / D) 0))
      = U / (D * 2 ^ shiftFrom 512 (U / D) 0) * (D * 2 ^ shiftFrom 512 (U / D) 0) :=
    Nat.mul_comm _ _
  have hsucc : (U / (D * 2 ^ shiftFrom 512 (U / D) 0) + 1) * (D * 2 ^ shiftFrom 512 (U / D) 0)
      = U / (D * 2 ^ shiftFrom 512 (U / D) 0) * (D * 2 ^ shiftFrom 512 (U / D) 0)
        + D * 2 ^ shiftFrom 512 (U / D) 0 := by ring
  unfold rne24
  simp only []
  split_ifs with hup
  · refine ⟨U / (D * 2 ^ shiftFrom 512 (U / D) 0) + 1, rfl, by omega, ?_, ?_⟩
    · rw [hsucc]
      rcases hup with h | h
      · omega
      · omega
    · rw [hsucc]; omega
  · refine ⟨U / (D * 2 ^ shiftFrom 512 (U / D) 0), rfl, by omega, ?_, ?_⟩
    · omega
    · have : ¬ D * 2 ^ shiftFrom 512 (U / D) 0 < 2 * (U % (D * 2 ^ shiftFrom 512 (U / D) 0)) :=
        fun h => hup (Or.inl h)
      omega

/-- The constants of the yaw update are the binary32 values of their usual
bit patterns: `1.0f`, `0.1f`, `0.9f`, and `1 - 0.1f` rounds to `0.9f`. -/
theorem F32.constants :
    F32.one = F32.ofBits 0x3f800000 ∧ F32.lit 1 10 = F32.ofBits 0x3dcccccd ∧
      F32.lit 9 10 = F32.ofBits 0x3f666666 ∧
      F32.one.sub (F32.lit 1 10) = F32.ofBits 0x3f666666 ∧
      F32.one.neg = F32.ofBits 0xbf800000 := by
  decide!

/-! ## The yaw velocity in binary32 -/

/-- With the left key held, the binary32 update of `turning.y` is the same whatever the other keys. -/
theorem VoxelTerrain.onUpdateTurningY32_left (keys : Keys) (y : F32) (h : keys.left = true) :
    VoxelTerrain.onUpdateTurningY32 keys y = VoxelTerrain.onUpdateTurningY32 leftHeld y := by
  unfold VoxelTerrain.onUpdateTurningY32
  simp [h, leftHeld]

/-- With the left key held on every call, the sequence of `turning.y` is that of `leftHeld`. -/
theorem VoxelTerrain.turningY32_left (y0 : F32) (keys : Nat → Keys)
    (hleft : ∀ i, (keys i).left = true) (n : Nat) :
    VoxelTerrain.turningY32 y0 keys n = VoxelTerrain.turningY32 y0 (fun _ => leftHeld) n := by
  induction n with
  | zero => rfl
  | succ n ih =>
    rw [VoxelTerrain.turningY32, VoxelTerrain.turningY32, ih,
      VoxelTerrain.onUpdateTurningY32_left _ _ (hleft n)]

/-- Starting one update later shifts the sequence by one. -/
theorem VoxelTerrain.turningY32_shift (y : F32) (n : Nat) :
    VoxelTerrain.turningY32 (VoxelTerrain.onUpdateTurningY32 leftHeld y) (fun _ => leftHeld) n
      = VoxelTerrain.turningY32 y (fun _ => leftHeld) (n + 1) := by
  induction n with
  | zero => rfl
  | succ n ih =>
    rw [VoxelTerrain.turningY32, ih]
    rfl

/-- A successful `climbCheck` means what its name says. -/
theorem climbCheck_sound : ∀ (k : Nat) (y : F32), climbCheck k y = true → ∀ n, n < k →
    (VoxelTerrain.turningY32 y (fun _ => leftHeld) n).units
        < (VoxelTerrain.turningY32 y (fun _ => leftHeld) (n + 1)).units ∧
      (VoxelTerrain.turningY32 y (fun _ => leftHeld) (n + 1)).units ≤ F32.one.units := by
  intro k
  induction k with
  | zero => intro y _ n hn; exact absurd hn (Nat.not_lt_zero n)
  | succ k ih =>
    intro y hy n hn
    rw [climbCheck, Bool.and_eq_true, decide_eq_true_eq] at hy
    cases n with
    | zero => exact hy.1
    | succ n =>
      have h := ih _ hy.2 n (by omega)
      rw [VoxelTerrain.turningY32_shift, VoxelTerrain.turningY32_shift] at h
      exact h

/-- The first 71 updates from 0 with the left key held each raise `turning.y`, which stays at most `1.0f`. -/
theorem climb71 : climbCheck 71 ⟨0⟩ = true := by
  decide!

/-- After 71 updates from 0 with the left key held, `turning.y` has the bit pattern `0x3ef286b7`. -/
theorem VoxelTerrain.turningY32_at_71 :
    VoxelTerrain.turningY32 ⟨0⟩ (fun _ => leftHeld) 71 = F32.ofBits 0x3ef286b7 := by
  decide!

/-- The value `0x3ef286b7` is a fixed point of the update with the left key held. -/
theorem VoxelTerrain.onUpdateTurningY32_fixed :
    VoxelTerrain.onUpdateTurningY32 leftHeld (F32.ofBits 0x3ef286b7) = F32.ofBits 0x3ef286b7 := by
  decide!

/-- From update 71 on, `turning.y` stays at `0x3ef286b7`. -/
theorem VoxelTerrain.turningY32_stalls (n : Nat) (hn : 71 ≤ n) :
    VoxelTerrain.turningY32 ⟨0⟩ (fun _ => leftHeld) n = F32.ofBits 0x3ef286b7 := by
  induction n, hn using Nat.le_induction with
  | base => exact VoxelTerrain.turningY32_at_71
  | succ n _ ih =>
    rw [VoxelTerrain.turningY32, ih]
    exact VoxelTerrain.onUpdateTurningY32_fixed

/-- The yaw velocity from rest with the left key held, in binary32: it rises
for 71 updates, never above `1.0f`, and then stays at `0x3ef286b7`. -/
theorem VoxelTerrain.turningY32_profile (n : Nat) :
    (VoxelTerrain.turningY32 ⟨0⟩ (fun _ => leftHeld) n).units
        ≤ (VoxelTerrain.turningY32 ⟨0⟩ (fun _ => leftHeld) (n + 1)).units ∧
      (VoxelTerrain.turningY32 ⟨0⟩ (fun _ => leftHeld) (n + 1)).units ≤ F32.one.units ∧
      (n < 71 → (VoxelTerrain.turningY32 ⟨0⟩ (fun _ => leftHeld) n).units
        < (VoxelTerrain.turningY32 ⟨0⟩ (fun _ => leftHeld) (n + 1)).units) ∧
      (71 ≤ n → VoxelTerrain.turningY32 ⟨0⟩ (fun _ => leftHeld) (n + 1)
          = VoxelTerrain.turningY32 ⟨0⟩ (fun _ => leftHeld) n ∧
        VoxelTerrain.turningY32 ⟨0⟩ (fun _ => leftHeld) n = F32.ofBits 0x3ef286b7) := by
  by_cases hn : n < 71
  · obtain ⟨h1, h2⟩ := climbCheck_sound 71 ⟨0⟩ climb71 n hn
    exact ⟨le_of_lt h1, h2, fun _ => h1, fun h => absurd hn (not_lt.mpr h)⟩
  · have hge : 71 ≤ n := not_lt.mp hn
    have e1 := VoxelTerrain.turningY32_stalls n hge
    have e2 := VoxelTerrain.turningY32_stalls (n + 1) (by omega)
    have hb := (climbCheck_sound 71 ⟨0⟩ climb71 70 (by omega)).2
    rw [VoxelTerrain.turningY32_at_71] at hb
    refine ⟨by rw [e1, e2], by rw [e2]; exact hb, fun h => absurd h hn, fun _ => ⟨by rw [e1, e2], e1⟩⟩

/-! ## Claim on the yaw velocity under rounding -/

/-- C9 (as amended): in binary32, starting from `turning.y = 0`, with turn-left
held on every call of `onUpdate` (any `dt`, any state of the other keys),
after every update `turning.y` is at least what it was before that update and
at most `1.0f`; it is strictly larger in each of the first 71 updates, and
from then on it stays at the value of bit pattern `0x3ef286b7` (about 0.47368),
a fixed point of the rounded update. -/
theorem VoxelTerrain.turning_y_binary32 (y0 : F32) (keys : Nat → Keys) (h0 : y0 = ⟨0⟩)
    (hleft : ∀ i, (keys i).left = true) (n : Nat) :
    (VoxelTerrain.turningY32 y0 keys n).units
        ≤ (VoxelTerrain.turningY32 y0 keys (n + 1)).units ∧
      (VoxelTerrain.turningY32 y0 keys (n + 1)).units ≤ F32.one.units ∧
      (n < 71 → (VoxelTerrain.turningY32 y0 keys n).units
        < (VoxelTerrain.turningY32 y0 keys (n + 1)).units) ∧
      (71 ≤ n → VoxelTerrain.turningY32 y0 keys (n + 1) = VoxelTerrain.turningY32 y0 keys n ∧
        VoxelTerrain.turningY32 y0 keys n = F32.ofBits 0x3ef286b7) := by
  subst h0
  rw [VoxelTerrain.turningY32_left _ keys hleft n,
    VoxelTerrain.turningY32_left _ keys hleft (n + 1)]
  exact VoxelTerrain.turningY32_profile n

/-- C9 witness: from rest, the left key held on every call, the fourth update. -/
theorem VoxelTerrain.turning_y_binary32_witness :
    (⟨0⟩ : F32) = ⟨0⟩ ∧ (∀ i : Nat, ((fun _ => leftHeld) i : Keys).left = true) ∧
    ((VoxelTerrain.turningY32 ⟨0⟩ (fun _ => leftHeld) 3).units
        ≤ (VoxelTerrain.turningY32 ⟨0⟩ (fun _ => leftHeld) (3 + 1)).units ∧
      (VoxelTerrain.turningY32 ⟨0⟩ (fun _ => leftHeld) (3 + 1)).units ≤ F32.one.units ∧
      (3 < 71 → (VoxelTerrain.turningY32 ⟨0⟩ (fun _ => leftHeld) 3).units
        < (VoxelTerrain.turningY32 ⟨0⟩ (fun _ => leftHeld) (3 + 1)).units) ∧
      (71 ≤ 3 → VoxelTerrain.turningY32 ⟨0⟩ (fun _ => leftHeld) (3 + 1)
          = VoxelTerrain.turningY32 ⟨0⟩ (fun _ => leftHeld) 3 ∧
        VoxelTerrain.turningY32 ⟨0⟩ (fun _ => leftHeld) 3 = F32.ofBits 0x3ef286b7)) :=
  ⟨rfl, fun _ => rfl,
    VoxelTerrain.turning_y_binary32 ⟨0⟩ (fun _ => leftHeld) rfl (fun _ => rfl) 3⟩

/-- C9 counterexample: in binary32, from rest with the left key held on every
call, `turning.y` has the bit pattern `0x3ef286b7` after update 71 and again
after update 72: update 72 does not make it strictly larger. -/
theorem VoxelTerrain.turning_y_stops_growing :
    VoxelTerrain.turningY32 ⟨0⟩ (fun _ => leftHeld) 71 = F32.ofBits 0x3ef286b7 ∧
      VoxelTerrain.turningY32 ⟨0⟩ (fun _ => leftHeld) 72 = F32.ofBits 0x3ef286b7 ∧
      ¬ ((VoxelTerrain.turningY32 ⟨0⟩ (fun _ => leftHeld) 71).units
        < (VoxelTerrain.turningY32 ⟨0⟩ (fun _ => leftHeld) 72).units) := by
  have e1 := VoxelTerrain.turningY32_stalls 71 (le_refl _)
  have e2 := VoxelTerrain.turningY32_stalls 72 (by omega)
  refine ⟨e1, e2, ?_⟩
  rw [e1, e2]
  exact lt_irrefl _

end Voxel
